import Mathlib

/-!
Verification of the `normalize-exponential` package (`src/index.js`).

JavaScript strings are modelled as `List Char`; the configured decimal
separator and exponent marker are fixed to `'.'` and `'e'`, matching the
configuration every behavioural claim is stated for.  JavaScript numbers
that hold exponent values are modelled as exact integers (`Int`); the
`NaN` produced by `parseInt` on a digit-free string is modelled by
`Option.none` and its rendering by the literal string `"NaN"`, exactly as
JavaScript stringifies it.  `String.prototype.toLowerCase` is modelled on
the ASCII range (all characters a numeric string can contain), and
`parseInt`'s radix handling is modelled for plain decimal strings, the
only ones the normalizer ever builds for it.
-/

namespace NormalizeExponential

/-! ### JavaScript string primitives -/

def decPoint : Char := '.'

def expSymbol : Char := 'e'

def isDigitC (c : Char) : Bool := decide (48 ≤ c.toNat ∧ c.toNat ≤ 57)

/-- `String.prototype.slice` index resolution: negative indices count from
the end and everything is clamped to `[0, len]`. -/
def jsIdx (len : Nat) (i : Int) : Nat := if i < 0 then (i + len).toNat else min i.toNat len

/-- `str.slice(a, b)` -/
def jsSlice (l : List Char) (a b : Int) : List Char :=
  (l.take (jsIdx l.length b)).drop (jsIdx l.length a)

/-- `str.indexOf(c)` for a single-character needle: first index or `-1`. -/
def indexOfC : List Char → Char → Int
  | [], _ => -1
  | c :: rest, t =>
    if c = t then 0 else (if indexOfC rest t < 0 then -1 else indexOfC rest t + 1)

/-- `str[i]`, which is `undefined` (here `none`) out of range. -/
def jsCharAt (l : List Char) (i : Int) : Option Char :=
  if i < 0 then none else l[i.toNat]?

/-- `str.slice(0, i) + seg + str.slice(i)` -/
def insertAt (l : List Char) (i : Int) (seg : List Char) : List Char :=
  jsSlice l 0 i ++ seg ++ jsSlice l i l.length

def isJsWS (c : Char) : Bool :=
  decide (c.toNat = 32 ∨ c.toNat = 9 ∨ c.toNat = 10 ∨ c.toNat = 13 ∨ c.toNat = 11 ∨
    c.toNat = 12 ∨ c.toNat = 160 ∨ c.toNat = 65279)

/-- `str.trim()` -/
def jsTrim (l : List Char) : List Char :=
  ((l.dropWhile isJsWS).reverse.dropWhile isJsWS).reverse

/-- `toLowerCase` on the ASCII range. -/
def jsToLower (c : Char) : Char :=
  if 65 ≤ c.toNat ∧ c.toNat ≤ 90 then Char.ofNat (c.toNat + 32) else c

/-! ### The program (`src/index.js`), with the default configuration
`decimalPoint = "."`, `exponentSymbol = "e"`. -/

/-- Strip a maximal all-`'0'` suffix (the `0+$` alternative of the regex in
`trimZeroes`). -/
def dropTrailZ (l : List Char) : List Char := (l.reverse.dropWhile (· = '0')).reverse

/-- `numStr.replace(/^(-)?0+|0+$/g, '$1')`: remove a leading run of zeroes
(after an optional kept minus sign) and a trailing run of zeroes. -/
def trimEnds (l : List Char) : List Char :=
  if l.head? = some '-' then
    (if (l.drop 1).head? = some '0' then '-' :: dropTrailZ ((l.drop 1).dropWhile (· = '0'))
     else dropTrailZ l)
  else if l.head? = some '0' then dropTrailZ (l.dropWhile (· = '0'))
  else dropTrailZ l

/-- `trimZeroes` of `src/index.js` (lines 52-66). -/
def trimZeroes (numStr : List Char) : List Char :=
  let n1 := trimEnds numStr
  let n2 := if n1.getLast? = some decPoint then n1 ++ ['0'] else n1
  if n2.head? = some decPoint then '0' :: n2 else n2

/-- `getBasePart` (lines 73-75). -/
def getBasePart (expStr : List Char) : List Char :=
  jsSlice expStr 0 (indexOfC expStr expSymbol)

/-- `getExpPart` (lines 82-84). -/
def getExpPart (expStr : List Char) : List Char :=
  jsSlice expStr (indexOfC expStr expSymbol) expStr.length

/-- `normalizeExpStr` (lines 91-125).  Note that `decPointIdx` is never
recomputed after the `".0"` insertion and that `expIndex` is recomputed
exactly where the source does. -/
def normalizeExpStr (expStr0 : List Char) : List Char :=
  let e0 := (jsTrim expStr0).map jsToLower
  let dIdx := indexOfC e0 decPoint
  let xIdx := indexOfC e0 expSymbol
  if dIdx < 0 ∧ xIdx < 0 then e0 ++ [decPoint, '0', expSymbol, '+', '0'] else
  let e1 := if dIdx < 0 then insertAt e0 xIdx [decPoint, '0'] else e0
  let xIdx1 := if dIdx < 0 then indexOfC e1 expSymbol else xIdx
  let e2 := if dIdx = 0 then '0' :: e1 else e1
  let e3 := if xIdx1 < 0 then e2 ++ [expSymbol, '+', '0'] else e2
  let xIdx2 := indexOfC e3 expSymbol
  if jsCharAt e3 (xIdx2 + 1) = some '+' ∨ jsCharAt e3 (xIdx2 + 1) = some '-' then e3
  else insertAt e3 (xIdx2 + 1) ['+']

/-- Value of a digit string read in base 10 (most significant first). -/
def digitsToNat (l : List Char) : Nat := l.foldl (fun a c => 10 * a + (c.toNat - 48)) 0

/-- `parseInt` restricted to what the normalizer feeds it: an optional sign
followed by a digit prefix; `none` models `NaN`. -/
def parseIntJS (l : List Char) : Option Int :=
  let neg := l.head? = some '-'
  let r := if l.head? = some '-' ∨ l.head? = some '+' then l.drop 1 else l
  let ds := r.takeWhile isDigitC
  if ds = [] then none else some ((if neg then -1 else 1) * (digitsToNat ds : Int))

/-- Decimal digits of a natural number, most significant first (fuel-based
so that the kernel can evaluate it). -/
def natToDigitsAux : Nat → Nat → List Char
  | 0, _ => []
  | _ + 1, 0 => []
  | fuel + 1, n + 1 =>
    natToDigitsAux fuel ((n + 1) / 10) ++ [Nat.digitChar ((n + 1) % 10)]

/-- `'' + n` for a non-negative integer `n` (plain decimal rendering). -/
def natToDigits (n : Nat) : List Char :=
  if n = 0 then ['0'] else natToDigitsAux (n + 1) n

/-- `shiftBaseDecimalPoint` (lines 133-142). -/
def shiftBaseDecimalPoint (fBasePart : List Char) (numPlaces : Int) : List Char :=
  let decPointIdx := indexOfC fBasePart decPoint
  let phantomIdx := if decPointIdx < 0 then (fBasePart.length : Int) else decPointIdx
  let newIdx := phantomIdx + numPlaces
  let d := jsSlice fBasePart 0 decPointIdx ++ jsSlice fBasePart (decPointIdx + 1) fBasePart.length
  trimZeroes (jsSlice d 0 newIdx ++ decPoint :: jsSlice d newIdx d.length)

/-- `shiftExponent` (lines 150-161). -/
def shiftExponent (fExpPart : List Char) (numPlaces : Int) : List Char :=
  let t := jsSlice fExpPart (indexOfC fExpPart expSymbol + 1) fExpPart.length
  match parseIntJS t with
  | none => [expSymbol, '+', 'N', 'a', 'N']
  | some v =>
    if v + numPlaces < 0 then expSymbol :: '-' :: natToDigits (-(v + numPlaces)).toNat
    else expSymbol :: '+' :: natToDigits (v + numPlaces).toNat

/-- The loop of `getShiftNumPlaces` for `i ≥ 1` in right-shift mode. -/
def rightLoop : List Char → Int → Int
  | [], s => s
  | c :: rest, s =>
    if c = decPoint then rightLoop rest s
    else if c = '0' then rightLoop rest (s + 1)
    else s + 2

/-- The loop of `getShiftNumPlaces` outside right-shift mode. -/
def leftLoop : List Char → Int → Int
  | [], s => s
  | c :: rest, s => if c = decPoint then s + 1 else leftLoop rest (s - 1)

/-- `getShiftNumPlaces` (lines 168-202).  In right-shift mode the first
character (necessarily `'0'`) still runs the bottom branch of the loop and
decrements the counter before the scan proper starts. -/
def getShiftNumPlaces (fStr : List Char) : Int :=
  if indexOfC fStr decPoint < 0 then -(((getBasePart fStr).length : Int) - 1)
  else if fStr.take 2 = ['0', decPoint] then
    (match fStr with
     | [] => 0
     | _ :: rest => rightLoop rest (-1))
  else leftLoop fStr 0

/-- The returned `normalizer` closure (lines 209-218). -/
def normalizer (expStr : List Char) : List Char :=
  let normExpStr := normalizeExpStr expStr
  let isNegative := indexOfC normExpStr '-' = 0
  let absoluteExpStr := if isNegative then normExpStr.drop 1 else normExpStr
  let shiftNumPlaces := getShiftNumPlaces absoluteExpStr
  (if isNegative then ['-'] else []) ++
    shiftBaseDecimalPoint (getBasePart absoluteExpStr) shiftNumPlaces ++
    shiftExponent (getExpPart absoluteExpStr) (-shiftNumPlaces)

/-! ### `Config` (lines 16-21), modelled over JavaScript values

`Config(config)` evaluates `'' + config.decimalPoint || '.'`.  Reading a
property of `undefined` throws a `TypeError`, and `'' + undefined` is the
(truthy) string `"undefined"`. -/

inductive JsVal
  | undef
  | str (s : List Char)

def jsValToString : JsVal → List Char
  | .undef => ['u', 'n', 'd', 'e', 'f', 'i', 'n', 'e', 'd']
  | .str s => s

/-- `a || b` for strings: only `""` is falsy. -/
def jsOrString (a b : List Char) : List Char := if a = [] then b else a

structure ConfigArg where
  decimalPoint : JsVal
  exponentSymbol : JsVal

/-- `Config` (lines 16-21): `none` models calling `normalizeExponential`
with the `config` argument omitted, which dereferences `undefined`. -/
def Config : Option ConfigArg → Except (List Char) (List Char × List Char)
  | none => .error ['T', 'y', 'p', 'e', 'E', 'r', 'r', 'o', 'r']
  | some c => .ok (jsOrString (jsValToString c.decimalPoint) [decPoint],
                   jsOrString (jsValToString c.exponentSymbol) [expSymbol])

/-! ### Value semantics (spec side)

`strValue` reads a numeric string as an exact rational: an optional minus
sign, integer digits, an optional fraction, and an optional
case-insensitive exponent.  It returns `none` on anything else.  This is
the arbitrary-precision decimal reading the specification's
value-preservation property appeals to. -/

def svNeg (l : List Char) : Bool := decide (l.head? = some '-')

def svL1 (l : List Char) : List Char := if svNeg l then l.drop 1 else l

def svI (l : List Char) : List Char := (svL1 l).takeWhile isDigitC

def svL2 (l : List Char) : List Char := (svL1 l).drop (svI l).length

def svPt (l : List Char) : Bool := decide ((svL2 l).head? = some decPoint)

def svR2 (l : List Char) : List Char := if svPt l then (svL2 l).drop 1 else svL2 l

def svF (l : List Char) : List Char := if svPt l then (svR2 l).takeWhile isDigitC else []

def svL3 (l : List Char) : List Char :=
  if svPt l then (svR2 l).drop (svF l).length else svL2 l

def svR3 (l : List Char) : List Char := (svL3 l).drop 1

def svHasESign (l : List Char) : Bool :=
  decide ((svR3 l).head? = some '-' ∨ (svR3 l).head? = some '+')

def svESgn (l : List Char) : Int := if (svR3 l).head? = some '-' then -1 else 1

def svR4 (l : List Char) : List Char := if svHasESign l then (svR3 l).drop 1 else svR3 l

def svE (l : List Char) : List Char := (svR4 l).takeWhile isDigitC

/-- The signed base value read by the parser. -/
def svBase (l : List Char) : ℚ :=
  (if svNeg l then -1 else 1) * (digitsToNat (svI l ++ svF l) : ℚ) / (10 : ℚ) ^ (svF l).length

def strValue (l : List Char) : Option ℚ :=
  if svI l ++ svF l = [] then none
  else if svL3 l = [] then some (svBase l)
  else if (svL3 l).head? = some 'e' ∨ (svL3 l).head? = some 'E' then
    (if svE l = [] ∨ (svR4 l).drop (svE l).length ≠ [] then none
     else some (svBase l * (10 : ℚ) ^ (svESgn l * (digitsToNat (svE l) : Int))))
  else none

/-! ### Basic facts about characters -/

def AllDigits (l : List Char) : Prop := ∀ c ∈ l, isDigitC c = true

theorem isDigitC_spec {c : Char} (h : isDigitC c = true) : 48 ≤ c.toNat ∧ c.toNat ≤ 57 := by
  simpa [isDigitC] using h

theorem digit_ne {c : Char} (h : isDigitC c = true) {t : Char} (ht : isDigitC t = false) :
    c ≠ t := by
  rintro rfl
  rw [h] at ht
  cases ht

theorem not_mem_of_all_digits {l : List Char} (h : AllDigits l) {t : Char}
    (ht : isDigitC t = false) : t ∉ l := by
  intro hm
  have := h t hm
  rw [this] at ht
  cases ht

theorem jsToLower_digit {c : Char} (h : isDigitC c = true) : jsToLower c = c := by
  have h2 := isDigitC_spec h
  rw [jsToLower, if_neg]
  omega

theorem isJsWS_digit {c : Char} (h : isDigitC c = true) : isJsWS c = false := by
  have h2 := isDigitC_spec h
  simp only [isJsWS, decide_eq_false_iff_not]
  omega

/-! ### List helper lemmas -/

theorem takeWhile_all {p : Char → Bool} : ∀ {l : List Char}, (∀ c ∈ l, p c = true) →
    l.takeWhile p = l
  | [], _ => rfl
  | c :: l, h => by
    rw [List.takeWhile_cons, h c (List.mem_cons_self c l), if_pos rfl,
      takeWhile_all fun x hx => h x (List.mem_cons_of_mem c hx)]

theorem dropWhile_all_neg {p : Char → Bool} : ∀ {l : List Char}, (∀ c ∈ l, p c = false) →
    l.dropWhile p = l
  | [], _ => rfl
  | c :: l, h => by
    rw [List.dropWhile_cons, h c (List.mem_cons_self c l)]
    simp

theorem takeWhile_append_stop {p : Char → Bool} {xs ys : List Char}
    (h1 : ∀ c ∈ xs, p c = true) (h2 : ∀ y, ys.head? = some y → p y = false) :
    (xs ++ ys).takeWhile p = xs := by
  induction xs with
  | nil =>
    simp only [List.nil_append]
    cases ys with
    | nil => rfl
    | cons y ys =>
      rw [List.takeWhile_cons, h2 y rfl]
      simp
  | cons x xs ih =>
    rw [List.cons_append, List.takeWhile_cons, h1 x (List.mem_cons_self x xs),
      if_pos rfl, ih (fun c hc => h1 c (List.mem_cons_of_mem x hc))]

theorem dropWhile_append_stop {p : Char → Bool} {xs : List Char} {y : Char} {ys : List Char}
    (h : p y = false) : (xs ++ y :: ys).dropWhile p = xs.dropWhile p ++ y :: ys := by
  induction xs with
  | nil =>
    simp only [List.nil_append, List.dropWhile_cons, h]
    simp
  | cons x xs ih =>
    rw [List.cons_append, List.dropWhile_cons, List.dropWhile_cons]
    by_cases hx : p x <;> simp [hx, ih]

theorem dropWhile_idem {p : Char → Bool} (l : List Char) :
    (l.dropWhile p).dropWhile p = l.dropWhile p := by
  induction l with
  | nil => rfl
  | cons c l ih =>
    rw [List.dropWhile_cons]
    by_cases hc : p c
    · simpa [hc] using ih
    · simp [List.dropWhile_cons, hc]

theorem mem_of_mem_takeWhile {p : Char → Bool} : ∀ {l : List Char} {c : Char},
    c ∈ l.takeWhile p → c ∈ l
  | [], _, h => by cases h
  | x :: l, c, h => by
    rw [List.takeWhile_cons] at h
    by_cases hx : p x
    · rw [if_pos hx] at h
      rcases List.mem_cons.1 h with h | h
      · exact h ▸ List.mem_cons_self x l
      · exact List.mem_cons_of_mem x (mem_of_mem_takeWhile h)
    · rw [if_neg hx] at h
      cases h

theorem mem_of_mem_dropWhile {p : Char → Bool} : ∀ {l : List Char} {c : Char},
    c ∈ l.dropWhile p → c ∈ l
  | [], _, h => by cases h
  | x :: l, c, h => by
    rw [List.dropWhile_cons] at h
    by_cases hx : p x
    · rw [if_pos hx] at h
      exact List.mem_cons_of_mem x (mem_of_mem_dropWhile h)
    · rw [if_neg hx] at h
      exact h

theorem jsTrim_eq_self {l : List Char} (h : ∀ c ∈ l, isJsWS c = false) : jsTrim l = l := by
  rw [jsTrim, dropWhile_all_neg h, dropWhile_all_neg, List.reverse_reverse]
  intro c hc
  exact h c (List.mem_reverse.1 hc)

/-! ### `indexOfC`, `jsSlice`, `jsCharAt`, `insertAt` computation lemmas -/

theorem indexOfC_not_mem : ∀ {l : List Char} {t : Char}, t ∉ l → indexOfC l t = -1
  | [], _, _ => rfl
  | c :: l, t, h => by
    rw [indexOfC, if_neg (fun hct => h (by rw [← hct]; exact List.mem_cons_self c l)),
      indexOfC_not_mem (fun hm => h (List.mem_cons_of_mem c hm))]
    simp

theorem indexOfC_append : ∀ {xs : List Char} {t : Char} (ys : List Char), t ∉ xs →
    indexOfC (xs ++ t :: ys) t = (xs.length : Int)
  | [], t, ys, _ => by simp [indexOfC]
  | x :: xs, t, ys, h => by
    rw [List.cons_append, indexOfC,
      if_neg (fun hct => h (by rw [← hct]; exact List.mem_cons_self x xs)),
      indexOfC_append ys (fun hm => h (List.mem_cons_of_mem x hm))]
    have : ¬ ((xs.length : Int) < 0) := by omega
    rw [if_neg this]
    simp

theorem take_min (l : List Char) (n : Nat) : l.take (min n l.length) = l.take n := by
  rcases le_total n l.length with h | h
  · rw [min_eq_left h]
  · rw [min_eq_right h, List.take_length, List.take_of_length_le h]

theorem drop_min (l : List Char) (n : Nat) : l.drop (min n l.length) = l.drop n := by
  rcases le_total n l.length with h | h
  · rw [min_eq_left h]
  · rw [min_eq_right h, List.drop_length, List.drop_eq_nil_of_le h]

theorem jsSlice_zero_nat (l : List Char) (n : Nat) : jsSlice l 0 (n : Int) = l.take n := by
  rw [jsSlice, jsIdx, jsIdx, if_neg (by omega : ¬ ((n : Int) < 0)),
    if_neg (by omega : ¬ ((0 : Int) < 0))]
  simp [take_min]

theorem jsSlice_nat_len (l : List Char) (n : Nat) :
    jsSlice l (n : Int) (l.length : Int) = l.drop n := by
  rw [jsSlice, jsIdx, jsIdx, if_neg (by omega : ¬ ((n : Int) < 0)),
    if_neg (by omega : ¬ ((l.length : Int) < 0))]
  simp [drop_min]

theorem jsCharAt_nat (l : List Char) (n : Nat) : jsCharAt l (n : Int) = l[n]? := by
  rw [jsCharAt, if_neg (by omega : ¬ ((n : Int) < 0))]
  simp

theorem insertAt_nat (xs ys seg : List Char) :
    insertAt (xs ++ ys) (xs.length : Int) seg = xs ++ seg ++ ys := by
  rw [insertAt, jsSlice_zero_nat, List.take_left]
  rw [show ((xs ++ ys).length : Int) = (((xs ++ ys).length : Nat) : Int) from rfl,
    jsSlice_nat_len, List.drop_left]

theorem charAt_append_succ (G : List Char) (c : Char) (B : List Char) :
    jsCharAt (G ++ c :: B) ((G.length : Int) + 1) = B.head? := by
  have h1 : (G.length : Int) + 1 = ((G.length + 1 : Nat) : Int) := by push_cast; ring
  rw [h1, jsCharAt_nat, List.getElem?_append_right (by omega : G.length ≤ G.length + 1)]
  have h2 : G.length + 1 - G.length = 1 := by omega
  rw [h2]
  cases B <;> simp

theorem getLast?_mem_list {l : List Char} {z : Char} (h : l.getLast? = some z) : z ∈ l := by
  have hm : z ∈ l.getLast? := by rw [h]; rfl
  rcases List.mem_getLast?_eq_getLast hm with ⟨hne, rfl⟩
  exact List.getLast_mem hne

/-! ### `digitsToNat` arithmetic -/

theorem digitsToNat_from : ∀ (l : List Char) (a : Nat),
    l.foldl (fun a c => 10 * a + (c.toNat - 48)) a = a * 10 ^ l.length + digitsToNat l
  | [], a => by simp [digitsToNat]
  | c :: l, a => by
    have h1 := digitsToNat_from l (10 * a + (c.toNat - 48))
    have h2 := digitsToNat_from l (10 * 0 + (c.toNat - 48))
    simp only [digitsToNat, List.foldl_cons, List.length_cons] at *
    rw [h1, h2]
    ring

theorem digitsToNat_append (xs ys : List Char) :
    digitsToNat (xs ++ ys) = digitsToNat xs * 10 ^ ys.length + digitsToNat ys := by
  rw [digitsToNat, List.foldl_append, ← digitsToNat, digitsToNat_from]

theorem digitsToNat_cons_zero (l : List Char) : digitsToNat ('0' :: l) = digitsToNat l := rfl

theorem digitsToNat_replicate_zero : ∀ n, digitsToNat (List.replicate n '0') = 0
  | 0 => rfl
  | n + 1 => by
    rw [List.replicate_succ, digitsToNat_cons_zero, digitsToNat_replicate_zero n]

theorem digitsToNat_zeros_append (n : Nat) (l : List Char) :
    digitsToNat (List.replicate n '0' ++ l) = digitsToNat l := by
  rw [digitsToNat_append, digitsToNat_replicate_zero]
  ring

theorem digitsToNat_dropWhile_zero : ∀ l : List Char,
    digitsToNat (l.dropWhile (· = '0')) = digitsToNat l
  | [] => rfl
  | c :: l => by
    by_cases hc : c = '0'
    · subst hc
      have h1 : ('0' :: l).dropWhile (· = '0') = l.dropWhile (· = '0') := by
        rw [List.dropWhile_cons]
        simp
      rw [h1, digitsToNat_dropWhile_zero l, digitsToNat_cons_zero]
    · have h1 : (c :: l).dropWhile (· = '0') = c :: l := by
        rw [List.dropWhile_cons]
        simp [hc]
      rw [h1]

/-! ### `dropTrailZ` -/

theorem dropTrailZ_decomp (l : List Char) : ∃ t, l = dropTrailZ l ++ List.replicate t '0' := by
  refine ⟨(l.reverse.takeWhile (· = '0')).length, ?_⟩
  have h2 : l.reverse.takeWhile (· = '0') =
      List.replicate ((l.reverse.takeWhile (· = '0')).length) '0' :=
    List.eq_replicate_of_mem (fun b hb => by simpa using List.mem_takeWhile_imp hb)
  conv_lhs => rw [← List.reverse_reverse l,
    ← List.takeWhile_append_dropWhile (· = '0') l.reverse]
  rw [List.reverse_append, dropTrailZ]
  congr 1
  rw [← List.reverse_replicate, ← h2]

theorem mem_of_mem_dropTrailZ {l : List Char} {c : Char} (h : c ∈ dropTrailZ l) : c ∈ l := by
  rw [dropTrailZ] at h
  rw [← List.reverse_reverse l]
  exact List.mem_reverse.2 (mem_of_mem_dropWhile (List.mem_reverse.1 h))

theorem dropTrailZ_idem (l : List Char) : dropTrailZ (dropTrailZ l) = dropTrailZ l := by
  rw [dropTrailZ, dropTrailZ, List.reverse_reverse, dropWhile_idem]

theorem dropTrailZ_append_dot (A Y : List Char) :
    dropTrailZ (A ++ decPoint :: Y) = A ++ decPoint :: dropTrailZ Y := by
  rw [dropTrailZ, List.reverse_append]
  rw [show (decPoint :: Y).reverse ++ A.reverse = Y.reverse ++ decPoint :: A.reverse by
    rw [List.reverse_cons, List.append_assoc]; rfl]
  rw [dropWhile_append_stop (by simp [decPoint])]
  rw [List.reverse_append, List.reverse_cons, List.reverse_reverse, dropTrailZ]
  simp

/-! ### `trimZeroes` characterization on a base of the form `X.Y` -/

/-- The padding `trimZeroes` applies to an emptied side of the decimal point. -/
def pad0 (l : List Char) : List Char := if l = [] then ['0'] else l

theorem trimEnds_base (X Y : List Char) (hX : AllDigits X) :
    trimEnds (X ++ decPoint :: Y) = X.dropWhile (· = '0') ++ decPoint :: dropTrailZ Y := by
  cases X with
  | nil =>
    rw [trimEnds]
    rw [if_neg (by simp [decPoint]), if_neg (by simp [decPoint])]
    simpa using dropTrailZ_append_dot [] Y
  | cons x X' =>
    have hx : isDigitC x = true := hX x (List.mem_cons_self x X')
    have hxm : x ≠ '-' := digit_ne hx (by decide)
    rw [trimEnds, if_neg (by simp [hxm])]
    by_cases hx0 : x = '0'
    · rw [if_pos (by simp [hx0]),
        dropWhile_append_stop (by simp [decPoint]), dropTrailZ_append_dot]
    · rw [if_neg (by simp [hx0]), dropTrailZ_append_dot]
      have : (x :: X').dropWhile (· = '0') = x :: X' := by
        rw [List.dropWhile_cons]
        simp [hx0]
      rw [this]

theorem trimZeroes_base (X Y : List Char) (hX : AllDigits X) (hY : AllDigits Y) :
    trimZeroes (X ++ decPoint :: Y) =
      pad0 (X.dropWhile (· = '0')) ++ decPoint :: pad0 (dropTrailZ Y) := by
  have hX'd : AllDigits (X.dropWhile (· = '0')) := fun c hc => hX c (mem_of_mem_dropWhile hc)
  have hY'd : AllDigits (dropTrailZ Y) := fun c hc => hY c (mem_of_mem_dropTrailZ hc)
  rw [trimZeroes]
  simp only [trimEnds_base X Y hX]
  generalize hXg : X.dropWhile (· = '0') = X' at hX'd ⊢
  generalize hYg : dropTrailZ Y = Y' at hY'd ⊢
  have hn2 : (if (X' ++ decPoint :: Y').getLast? = some decPoint
      then X' ++ decPoint :: Y' ++ ['0'] else X' ++ decPoint :: Y')
      = X' ++ decPoint :: pad0 Y' := by
    cases Y' with
    | nil =>
      rw [show X' ++ decPoint :: ([] : List Char) = X' ++ [decPoint] from rfl,
        List.getLast?_concat, if_pos rfl]
      simp [pad0]
    | cons y Y'' =>
      have hne : ¬ ((X' ++ decPoint :: y :: Y'').getLast? = some decPoint) := by
        cases h3 : (y :: Y'').getLast? with
        | none => simp at h3
        | some z =>
          have hz : isDigitC z = true := hY'd z (getLast?_mem_list h3)
          have hzd : z ≠ decPoint := digit_ne hz (by decide)
          intro hcon
          rw [List.getLast?_append, List.getLast?_cons_cons, h3] at hcon
          simp only [Option.or_some] at hcon
          exact hzd (by injection hcon)
      rw [if_neg hne, pad0, if_neg (by simp)]
  rw [hn2]
  cases X' with
  | nil =>
    rw [if_pos (show (([] : List Char) ++ decPoint :: pad0 Y').head? = some decPoint by simp)]
    simp [pad0]
  | cons x X'' =>
    have hxd : isDigitC x = true := hX'd x (List.mem_cons_self x X'')
    have hxne : x ≠ decPoint := digit_ne hxd (by decide)
    rw [if_neg (by simp [hxne])]
    rw [show pad0 (x :: X'') = x :: X'' by rw [pad0, if_neg (by simp)]]

/-! ### Decimal rendering of naturals -/

theorem digitsToNat_singleton (c : Char) : digitsToNat [c] = c.toNat - 48 := by
  simp [digitsToNat]

theorem natToDigitsAux_zero : ∀ fuel, natToDigitsAux fuel 0 = []
  | 0 => rfl
  | _ + 1 => rfl

theorem natToDigitsAux_digits : ∀ (fuel n : Nat), AllDigits (natToDigitsAux fuel n)
  | 0, _ => by intro c hc; cases hc
  | _ + 1, 0 => by intro c hc; cases hc
  | fuel + 1, n + 1 => by
    intro c hc
    rw [natToDigitsAux] at hc
    rcases List.mem_append.1 hc with h | h
    · exact natToDigitsAux_digits fuel ((n + 1) / 10) c h
    · have hc2 : c = Nat.digitChar ((n + 1) % 10) := by simpa using h
      have hlt : (n + 1) % 10 < 10 := Nat.mod_lt _ (by norm_num)
      rw [hc2]
      exact (by decide : ∀ d, d < 10 → isDigitC (Nat.digitChar d) = true) _ hlt

theorem natToDigitsAux_val : ∀ (fuel n : Nat), n ≤ fuel →
    digitsToNat (natToDigitsAux fuel n) = n
  | 0, n, h => by
    have : n = 0 := by omega
    subst this
    rfl
  | _ + 1, 0, _ => rfl
  | fuel + 1, n + 1, h => by
    rw [natToDigitsAux, digitsToNat_append]
    have hdiv : (n + 1) / 10 ≤ fuel := by
      have := Nat.div_lt_self (Nat.succ_pos n) (by norm_num : 1 < 10)
      omega
    rw [natToDigitsAux_val fuel ((n + 1) / 10) hdiv, digitsToNat_singleton]
    have hm : (n + 1) % 10 < 10 := Nat.mod_lt _ (by norm_num)
    have hdc : (Nat.digitChar ((n + 1) % 10)).toNat - 48 = (n + 1) % 10 :=
      (by decide : ∀ d, d < 10 → (Nat.digitChar d).toNat - 48 = d) _ hm
    rw [hdc]
    simp only [List.length_singleton, pow_one]
    omega

theorem natToDigitsAux_ne_nil : ∀ (fuel n : Nat), 0 < n → n ≤ fuel →
    natToDigitsAux fuel n ≠ []
  | 0, n, h1, h2 => by omega
  | fuel + 1, n + 1, _, _ => by
    rw [natToDigitsAux]
    simp

theorem natToDigitsAux_head : ∀ (fuel n : Nat), 0 < n → n ≤ fuel →
    (natToDigitsAux fuel n).head? ≠ some '0'
  | 0, n, h1, h2 => by omega
  | fuel + 1, n + 1, _, h => by
    rw [natToDigitsAux]
    by_cases h10 : n + 1 < 10
    · rw [Nat.div_eq_of_lt h10, natToDigitsAux_zero, List.nil_append]
      have hmod : (n + 1) % 10 = n + 1 := Nat.mod_eq_of_lt h10
      rw [hmod]
      have := (by decide : ∀ d, d < 10 → 0 < d → Nat.digitChar d ≠ '0') (n + 1) h10 (by omega)
      simp [this]
    · have h2 : 0 < (n + 1) / 10 := Nat.div_pos (by omega) (by norm_num)
      have h3 : (n + 1) / 10 ≤ fuel := by
        have := Nat.div_lt_self (Nat.succ_pos n) (by norm_num : 1 < 10)
        omega
      have hne := natToDigitsAux_ne_nil fuel ((n + 1) / 10) h2 h3
      have ih := natToDigitsAux_head fuel ((n + 1) / 10) h2 h3
      rw [List.head?_append]
      cases hh : (natToDigitsAux fuel ((n + 1) / 10)).head? with
      | none => exact absurd (List.head?_eq_none_iff.1 hh) hne
      | some z =>
        rw [hh] at ih
        simpa using ih

theorem natToDigits_val (n : Nat) : digitsToNat (natToDigits n) = n := by
  rw [natToDigits]
  by_cases h : n = 0
  · subst h; rfl
  · rw [if_neg h]
    exact natToDigitsAux_val (n + 1) n (by omega)

theorem natToDigits_digits (n : Nat) : AllDigits (natToDigits n) := by
  rw [natToDigits]
  by_cases h : n = 0
  · subst h
    intro c hc
    simp at hc
    rw [hc]
    decide
  · rw [if_neg h]
    exact natToDigitsAux_digits (n + 1) n

theorem natToDigits_ne_nil (n : Nat) : natToDigits n ≠ [] := by
  rw [natToDigits]
  by_cases h : n = 0
  · subst h; simp
  · rw [if_neg h]
    exact natToDigitsAux_ne_nil (n + 1) n (by omega) (by omega)

theorem natToDigits_head (n : Nat) (h : n ≠ 0) : (natToDigits n).head? ≠ some '0' := by
  rw [natToDigits, if_neg h]
  exact natToDigitsAux_head (n + 1) n (by omega) (by omega)

theorem natToDigits_zero : natToDigits 0 = ['0'] := rfl

/-! ### `parseIntJS` and `shiftExponent` on canonical exponent parts -/

/-- Signed value of an exponent rendered as sign character plus digits. -/
def svalZ (sg : Char) (E : List Char) : Int :=
  (if sg = '-' then -1 else 1) * (digitsToNat E : Int)

theorem parseIntJS_signed (sg : Char) (E : List Char) (hsg : sg = '+' ∨ sg = '-')
    (hE : AllDigits E) (hne : E ≠ []) : parseIntJS (sg :: E) = some (svalZ sg E) := by
  have ht : E.takeWhile isDigitC = E := takeWhile_all hE
  rcases hsg with rfl | rfl <;>
    simp [parseIntJS, ht, hne, svalZ]

theorem shiftExponent_canonical (sg : Char) (E : List Char) (m : Int)
    (hsg : sg = '+' ∨ sg = '-') (hE : AllDigits E) (hne : E ≠ []) :
    shiftExponent (expSymbol :: sg :: E) m =
      expSymbol :: (if svalZ sg E + m < 0 then '-' else '+') ::
        natToDigits (svalZ sg E + m).natAbs := by
  have hidx : indexOfC (expSymbol :: sg :: E) expSymbol = 0 := by
    rw [indexOfC, if_pos rfl]
  have hslice : jsSlice (expSymbol :: sg :: E) (0 + 1)
      ((expSymbol :: sg :: E).length : Int) = sg :: E := by
    rw [show (0 + 1 : Int) = ((1 : Nat) : Int) by norm_num, jsSlice_nat_len]
    rfl
  simp only [shiftExponent, hidx, hslice, parseIntJS_signed sg E hsg hE hne]
  by_cases hv : svalZ sg E + m < 0
  · rw [if_pos hv, if_pos hv]
    have : (-(svalZ sg E + m)).toNat = (svalZ sg E + m).natAbs := by omega
    rw [this]
  · rw [if_neg hv, if_neg hv]
    have : (svalZ sg E + m).toNat = (svalZ sg E + m).natAbs := by omega
    rw [this]

/-! ### The scan of `getShiftNumPlaces` -/

theorem leftLoop_eq : ∀ (P R : List Char) (s : Int), decPoint ∉ P →
    leftLoop (P ++ decPoint :: R) s = s - P.length + 1
  | [], R, s, _ => by
    rw [List.nil_append, leftLoop, if_pos rfl]
    simp
  | p :: P, R, s, h => by
    rw [List.cons_append, leftLoop,
      if_neg (fun hc => h (by rw [hc]; exact List.mem_cons_self _ _)),
      leftLoop_eq P R (s - 1) (fun hm => h (List.mem_cons_of_mem p hm))]
    simp only [List.length_cons]
    push_cast
    ring

theorem rightLoop_zeros_core : ∀ (Z : List Char), (∀ c ∈ Z, c = '0') →
    ∀ (c2 : Char), c2 ≠ decPoint → c2 ≠ '0' → ∀ (R : List Char) (s : Int),
    rightLoop (Z ++ c2 :: R) s = s + Z.length + 2
  | [], _, c2, h1, h2, R, s => by
    rw [List.nil_append, rightLoop, if_neg h1, if_neg h2]
    simp
  | z :: Z, hZ, c2, h1, h2, R, s => by
    have hz : z = '0' := hZ z (List.mem_cons_self z Z)
    rw [List.cons_append, rightLoop,
      if_neg (by rw [hz]; decide), if_pos (by rw [hz]),
      rightLoop_zeros_core Z (fun c hc => hZ c (List.mem_cons_of_mem z hc)) c2 h1 h2 R (s + 1)]
    simp only [List.length_cons]
    push_cast
    ring

theorem rightLoop_dot (Z : List Char) (hZ : ∀ c ∈ Z, c = '0') (c2 : Char)
    (h1 : c2 ≠ decPoint) (h2 : c2 ≠ '0') (R : List Char) (s : Int) :
    rightLoop (decPoint :: (Z ++ c2 :: R)) s = s + Z.length + 2 := by
  rw [rightLoop, if_pos rfl, rightLoop_zeros_core Z hZ c2 h1 h2 R s]

theorem char_eq_of_toNat {c d : Char} (h : c.toNat = d.toNat) : c = d :=
  Char.ext (UInt32.toNat.inj h)

theorem dropWhile_all_pos {p : Char → Bool} : ∀ {l : List Char}, (∀ c ∈ l, p c = true) →
    l.dropWhile p = []
  | [], _ => rfl
  | c :: l, h => by
    rw [List.dropWhile_cons, if_pos (h c (List.mem_cons_self c l))]
    exact dropWhile_all_pos fun x hx => h x (List.mem_cons_of_mem c hx)

theorem take_append_len : ∀ (Z L : List Char) (n : Nat), (Z ++ L).take (Z.length + n) = Z ++ L.take n
  | [], L, n => by simp
  | z :: Z, L, n => by
    simp only [List.cons_append, List.length_cons]
    rw [show Z.length + 1 + n = (Z.length + n) + 1 by omega, List.take_succ_cons,
      take_append_len Z L n]

theorem drop_append_len : ∀ (Z L : List Char) (n : Nat), (Z ++ L).drop (Z.length + n) = L.drop n
  | [], L, n => by simp
  | z :: Z, L, n => by
    simp only [List.cons_append, List.length_cons]
    rw [show Z.length + 1 + n = (Z.length + n) + 1 by omega, List.drop_succ_cons,
      drop_append_len Z L n]

theorem zeros_decomp : ∀ (Q : List Char), (∀ c ∈ Q, c = '0') ∨
    ∃ Z d Q2, Q = Z ++ d :: Q2 ∧ (∀ c ∈ Z, c = '0') ∧ d ≠ '0'
  | [] => Or.inl (fun c hc => by cases hc)
  | q :: Q => by
    by_cases hq : q = '0'
    · rcases zeros_decomp Q with h | ⟨Z, d, Q2, hQ, hZ, hd⟩
      · exact Or.inl (fun c hc => by
          rcases List.mem_cons.1 hc with h1 | h1
          · rw [h1, hq]
          · exact h c h1)
      · refine Or.inr ⟨q :: Z, d, Q2, by rw [hQ, List.cons_append], ?_, hd⟩
        intro c hc
        rcases List.mem_cons.1 hc with h1 | h1
        · rw [h1, hq]
        · exact hZ c h1
    · exact Or.inr ⟨[], q, Q, rfl, fun c hc => absurd hc (List.not_mem_nil c), hq⟩

theorem all_zero_of_digitsToNat_zero : ∀ {D : List Char}, AllDigits D → digitsToNat D = 0 →
    ∀ c ∈ D, c = '0'
  | [], _, _, c, hc => by cases hc
  | d :: D, hD, h0, c, hc => by
    have hsplit : digitsToNat ([d] ++ D) = digitsToNat [d] * 10 ^ D.length + digitsToNat D :=
      digitsToNat_append [d] D
    rw [List.singleton_append, h0, digitsToNat_singleton] at hsplit
    have hd : isDigitC d = true := hD d (List.mem_cons_self d D)
    have hspec := isDigitC_spec hd
    have hpow : 0 < 10 ^ D.length := Nat.pos_pow_of_pos _ (by norm_num)
    have hz : (d.toNat - 48) * 10 ^ D.length = 0 ∧ digitsToNat D = 0 := by
      constructor <;> omega
    have hsub : d.toNat - 48 = 0 := by
      rcases Nat.mul_eq_zero.1 hz.1 with h1 | h1
      · exact h1
      · omega
    have hd0 : d = '0' := char_eq_of_toNat (by
      have h48 : d.toNat = 48 := by omega
      rw [h48]
      decide)
    rcases List.mem_cons.1 hc with h1 | h1
    · rw [h1, hd0]
    · exact all_zero_of_digitsToNat_zero
        (fun x hx => hD x (List.mem_cons_of_mem d hx)) hz.2 c h1

theorem indexOfC_nonneg {l : List Char} {c : Char} (h : c ∈ l) : 0 ≤ indexOfC l c := by
  induction l with
  | nil => cases h
  | cons x l ih =>
    rw [indexOfC]
    by_cases hx : x = c
    · rw [if_pos hx]
    · rw [if_neg hx]
      rcases List.mem_cons.1 h with h1 | h1
      · exact absurd h1.symm hx
      · have := ih h1
        rw [if_neg (by omega)]
        omega

theorem indexOfC_zero_head {l : List Char} {c : Char} (h : indexOfC l c = 0) :
    l.head? = some c := by
  cases l with
  | nil => cases h
  | cons x l =>
    rw [indexOfC] at h
    by_cases hx : x = c
    · rw [hx]; rfl
    · rw [if_neg hx] at h
      by_cases hr : indexOfC l c < 0
      · rw [if_pos hr] at h; cases h
      · rw [if_neg hr] at h; omega

/-! ### `getBasePart`, `getExpPart`, `getShiftNumPlaces` and
`shiftBaseDecimalPoint` on canonical absolute strings -/

theorem getBasePart_canonical (P Q R : List Char) (hP : expSymbol ∉ P)
    (hQ : expSymbol ∉ Q) (hdot : expSymbol ≠ decPoint) :
    getBasePart (P ++ decPoint :: (Q ++ expSymbol :: R)) = P ++ decPoint :: Q := by
  have hsh : P ++ decPoint :: (Q ++ expSymbol :: R) =
      (P ++ decPoint :: Q) ++ expSymbol :: R := by simp
  have hnm : expSymbol ∉ P ++ decPoint :: Q := by
    intro hm
    rcases List.mem_append.1 hm with h | h
    · exact hP h
    · rcases List.mem_cons.1 h with h1 | h1
      · exact hdot h1
      · exact hQ h1
  rw [getBasePart, hsh, indexOfC_append _ hnm, jsSlice_zero_nat, List.take_left]

theorem getExpPart_canonical (P Q R : List Char) (hP : expSymbol ∉ P)
    (hQ : expSymbol ∉ Q) (hdot : expSymbol ≠ decPoint) :
    getExpPart (P ++ decPoint :: (Q ++ expSymbol :: R)) = expSymbol :: R := by
  have hsh : P ++ decPoint :: (Q ++ expSymbol :: R) =
      (P ++ decPoint :: Q) ++ expSymbol :: R := by simp
  have hnm : expSymbol ∉ P ++ decPoint :: Q := by
    intro hm
    rcases List.mem_append.1 hm with h | h
    · exact hP h
    · rcases List.mem_cons.1 h with h1 | h1
      · exact hdot h1
      · exact hQ h1
  rw [getExpPart, hsh, indexOfC_append _ hnm, jsSlice_nat_len, List.drop_left]

theorem getShift_left (P Q R : List Char) (hP : AllDigits P) (hPne : P ≠ ['0']) :
    getShiftNumPlaces (P ++ decPoint :: (Q ++ expSymbol :: R)) = 1 - P.length := by
  have hdp : decPoint ∉ P := not_mem_of_all_digits hP (by decide)
  rw [getShiftNumPlaces.eq_def, indexOfC_append _ hdp, if_neg (by omega)]
  have htake : ¬ ((P ++ decPoint :: (Q ++ expSymbol :: R)).take 2 = ['0', decPoint]) := by
    cases P with
    | nil =>
      intro hcon
      rw [List.nil_append, List.take_succ_cons] at hcon
      have : decPoint = '0' := by injection hcon
      exact absurd this (by decide)
    | cons p P' =>
      cases P' with
      | nil =>
        intro hcon
        rw [List.cons_append, List.take_succ_cons, List.nil_append,
          List.take_succ_cons] at hcon
        have hp : p = '0' := by injection hcon
        exact hPne (by rw [hp])
      | cons p' P'' =>
        intro hcon
        rw [List.cons_append, List.take_succ_cons, List.cons_append,
          List.take_succ_cons] at hcon
        have hp' : p' = decPoint := by
          have h2 : p' :: (P'' ++ decPoint :: (Q ++ expSymbol :: R)).take 0 = [decPoint] := by
            injection hcon
          injection h2
        have hd : isDigitC p' = true := hP p' (by simp)
        exact absurd hp' (digit_ne hd (by decide))
  rw [if_neg htake, leftLoop_eq P _ 0 hdp]
  omega

theorem getShift_right_zeros (Z R : List Char) (hZ : ∀ c ∈ Z, c = '0') :
    getShiftNumPlaces ('0' :: decPoint :: (Z ++ expSymbol :: R)) = Z.length + 1 := by
  have hidx := @indexOfC_append ['0'] decPoint (Z ++ expSymbol :: R) (by decide)
  rw [List.singleton_append, List.length_singleton] at hidx
  rw [getShiftNumPlaces.eq_def, hidx, if_neg (by omega),
    if_pos (by rw [List.take_succ_cons, List.take_succ_cons, List.take_zero])]
  show rightLoop (decPoint :: (Z ++ expSymbol :: R)) (-1) = _
  rw [rightLoop_dot Z hZ expSymbol (by decide) (by decide) R (-1)]
  ring

theorem getShift_right_sig (Z : List Char) (hZ : ∀ c ∈ Z, c = '0') (d : Char)
    (hd0 : d ≠ '0') (hdd : d ≠ decPoint) (Q2 R : List Char) :
    getShiftNumPlaces ('0' :: decPoint :: ((Z ++ d :: Q2) ++ expSymbol :: R)) =
      Z.length + 1 := by
  have hidx := @indexOfC_append ['0'] decPoint ((Z ++ d :: Q2) ++ expSymbol :: R)
    (by decide)
  rw [List.singleton_append, List.length_singleton] at hidx
  rw [getShiftNumPlaces.eq_def, hidx, if_neg (by omega),
    if_pos (by rw [List.take_succ_cons, List.take_succ_cons, List.take_zero])]
  show rightLoop (decPoint :: ((Z ++ d :: Q2) ++ expSymbol :: R)) (-1) = _
  have hsh : (Z ++ d :: Q2) ++ expSymbol :: R = Z ++ d :: (Q2 ++ expSymbol :: R) := by
    simp
  rw [hsh, rightLoop_dot Z hZ d hdd hd0 (Q2 ++ expSymbol :: R) (-1)]
  ring

theorem shiftBaseDecimalPoint_eq (P Q : List Char) (num : Int) (k : Nat)
    (hP : decPoint ∉ P) (hk : (P.length : Int) + num = (k : Int)) :
    shiftBaseDecimalPoint (P ++ decPoint :: Q) num =
      trimZeroes ((P ++ Q).take k ++ decPoint :: (P ++ Q).drop k) := by
  have hidx : indexOfC (P ++ decPoint :: Q) decPoint = (P.length : Int) :=
    indexOfC_append _ hP
  have hd1 : jsSlice (P ++ decPoint :: Q) 0 (P.length : Int) = P := by
    rw [jsSlice_zero_nat, List.take_left]
  have hd2 : jsSlice (P ++ decPoint :: Q) ((P.length : Int) + 1)
      (((P ++ decPoint :: Q).length : Nat) : Int) = Q := by
    rw [show (P.length : Int) + 1 = ((P.length + 1 : Nat) : Int) by push_cast; ring,
      jsSlice_nat_len]
    rw [show P ++ decPoint :: Q = (P ++ [decPoint]) ++ Q by simp]
    exact List.drop_left' (by simp)
  simp only [shiftBaseDecimalPoint, hidx, if_neg (by omega : ¬ ((P.length : Int) < 0)),
    hd1, hd2, hk]
  rw [jsSlice_zero_nat, jsSlice_nat_len]

/-! ### Exact rational value of a base written as `X . Y` -/

/-- Value of the digit string `X ++ Y` with the decimal point between `X`
and `Y`, as an exact rational. -/
def fracValQ (X Y : List Char) : ℚ := (digitsToNat (X ++ Y) : ℚ) / (10 : ℚ) ^ Y.length

theorem fracValQ_zpow (X Y : List Char) (e : Int) :
    fracValQ X Y * (10 : ℚ) ^ e =
      (digitsToNat (X ++ Y) : ℚ) * (10 : ℚ) ^ (e - (Y.length : Int)) := by
  rw [fracValQ, zpow_sub₀ (by norm_num : (10 : ℚ) ≠ 0), zpow_natCast]
  ring

theorem fracValQ_zeros (X Y : List Char) (t : Nat) :
    fracValQ X (Y ++ List.replicate t '0') = fracValQ X Y := by
  rw [fracValQ, fracValQ,
    show X ++ (Y ++ List.replicate t '0') = (X ++ Y) ++ List.replicate t '0' by
      rw [List.append_assoc],
    digitsToNat_append, digitsToNat_replicate_zero, List.length_append,
    List.length_replicate, pow_add]
  push_cast
  have h10 : ((10 : ℚ) ^ Y.length) ≠ 0 := by positivity
  have h10t : ((10 : ℚ) ^ t) ≠ 0 := by positivity
  field_simp
  ring

theorem fracValQ_pad_nil (X : List Char) : fracValQ X (pad0 []) = fracValQ X [] := by
  rw [show pad0 [] = ['0'] from rfl, fracValQ, fracValQ, digitsToNat_append X ['0'],
    digitsToNat_singleton, show ('0' : Char).toNat - 48 = 0 by decide]
  simp

theorem fracValQ_trim (X R : List Char) : fracValQ X (pad0 (dropTrailZ R)) = fracValQ X R := by
  obtain ⟨t, ht⟩ := dropTrailZ_decomp R
  by_cases h0 : dropTrailZ R = []
  · have ht' : R = List.replicate t '0' := by
      rw [h0] at ht
      simpa using ht
    rw [h0, ht',
      show (List.replicate t '0' : List Char) = [] ++ List.replicate t '0' by simp,
      fracValQ_zeros X [] t, fracValQ_pad_nil]
  · rw [pad0, if_neg h0]
    conv_rhs => rw [ht]
    rw [fracValQ_zeros X (dropTrailZ R) t]

theorem fracValQ_cons_zero (X Y : List Char) : fracValQ ('0' :: X) Y = fracValQ X Y := by
  rw [fracValQ, fracValQ, show ('0' :: X) ++ Y = '0' :: (X ++ Y) from rfl,
    digitsToNat_cons_zero]

theorem fracValQ_zeros_pre (n : Nat) (X Y : List Char) :
    fracValQ (List.replicate n '0' ++ X) Y = fracValQ X Y := by
  rw [fracValQ, fracValQ, List.append_assoc, digitsToNat_zeros_append]

/-- The signed value a rendered exponent reads back to. -/
theorem svalZ_render (v : Int) :
    svalZ (if v < 0 then '-' else '+') (natToDigits v.natAbs) = v := by
  rw [svalZ]
  by_cases hv : v < 0
  · rw [if_pos hv, if_pos rfl, natToDigits_val]
    omega
  · rw [if_neg hv, if_neg (by decide : ¬ (('+' : Char) = '-')), natToDigits_val]
    omega

/-! ### Small helpers for the shifted-base characterization -/

theorem all_digits_append {P Q : List Char} (hP : AllDigits P) (hQ : AllDigits Q) :
    AllDigits (P ++ Q) := by
  intro c hc
  rcases List.mem_append.1 hc with h | h
  · exact hP c h
  · exact hQ c h

theorem all_digits_pad0 {l : List Char} (h : AllDigits l) : AllDigits (pad0 l) := by
  rw [pad0]
  by_cases hl : l = []
  · rw [if_pos hl]
    intro c hc
    simp at hc
    rw [hc]
    decide
  · rw [if_neg hl]
    exact h

theorem pad0_ne_nil (l : List Char) : pad0 l ≠ [] := by
  rw [pad0]
  by_cases hl : l = []
  · rw [if_pos hl]; simp
  · rw [if_neg hl]; exact hl

theorem dropTrailZ_all_zero {l : List Char} (h : ∀ c ∈ l, c = '0') : dropTrailZ l = [] := by
  rw [dropTrailZ, dropWhile_all_pos, List.reverse_nil]
  intro c hc
  rw [h c (List.mem_reverse.1 hc)]
  decide

theorem pad0_dropTrailZ_stable (R : List Char) :
    pad0 (dropTrailZ (pad0 (dropTrailZ R))) = pad0 (dropTrailZ R) := by
  by_cases h0 : dropTrailZ R = []
  · rw [h0, show pad0 ([] : List Char) = ['0'] from rfl,
      @dropTrailZ_all_zero ['0'] (by intro c hc; simpa using hc)]
    rfl
  · have h1 : pad0 (dropTrailZ R) = dropTrailZ R := by rw [pad0, if_neg h0]
    rw [h1, dropTrailZ_idem, h1]

theorem pad0_single_dropWhile (d : Char) : pad0 ([d].dropWhile (· = '0')) = [d] := by
  by_cases hd : d = '0'
  · subst hd
    have h1 : (['0'] : List Char).dropWhile (· = '0') = [] :=
      dropWhile_all_pos (by intro c hc; simp at hc; rw [hc]; decide)
    rw [h1]
    rfl
  · have h1 : ([d] : List Char).dropWhile (· = '0') = [d] := by
      rw [List.dropWhile_cons]
      simp [hd]
    rw [h1, pad0, if_neg (by simp)]

/-- The core of the base/exponent shifting stage: applied to a sign-free
canonical string `P . Q e sg E`, the computed shift plus base shift produce
a single leading digit, and the exponent absorbs the shift so that the
denoted value is unchanged. -/
theorem stage2_main (P Q : List Char) (sg : Char) (E : List Char)
    (hP : AllDigits P) (hQ : AllDigits Q) (hE : AllDigits E) (hEne : E ≠ [])
    (hsg : sg = '+' ∨ sg = '-') (hPQ : P ++ Q ≠ []) :
    ∃ (d : Char) (Y : List Char) (v2 : Int),
      shiftBaseDecimalPoint (getBasePart (P ++ decPoint :: (Q ++ expSymbol :: sg :: E)))
          (getShiftNumPlaces (P ++ decPoint :: (Q ++ expSymbol :: sg :: E))) =
        d :: decPoint :: Y ∧
      shiftExponent (getExpPart (P ++ decPoint :: (Q ++ expSymbol :: sg :: E)))
          (-(getShiftNumPlaces (P ++ decPoint :: (Q ++ expSymbol :: sg :: E)))) =
        expSymbol :: (if v2 < 0 then '-' else '+') :: natToDigits v2.natAbs ∧
      isDigitC d = true ∧ AllDigits Y ∧ Y ≠ [] ∧ pad0 (dropTrailZ Y) = Y ∧
      fracValQ [d] Y * (10 : ℚ) ^ v2 = fracValQ P Q * (10 : ℚ) ^ svalZ sg E ∧
      (digitsToNat (P ++ Q) = 0 → d = '0' ∧ Y = ['0']) ∧
      (digitsToNat (P ++ Q) ≠ 0 →
        (P = ['0'] ∨ (∃ p P', P = p :: P' ∧ p ≠ '0')) → d ≠ '0') := by
  have hPe : expSymbol ∉ P := not_mem_of_all_digits hP (by decide)
  have hQe : expSymbol ∉ Q := not_mem_of_all_digits hQ (by decide)
  have hPd : decPoint ∉ P := not_mem_of_all_digits hP (by decide)
  have hbase : getBasePart (P ++ decPoint :: (Q ++ expSymbol :: sg :: E)) =
      P ++ decPoint :: Q := getBasePart_canonical P Q _ hPe hQe (by decide)
  have hexpp : getExpPart (P ++ decPoint :: (Q ++ expSymbol :: sg :: E)) =
      expSymbol :: sg :: E := getExpPart_canonical P Q _ hPe hQe (by decide)
  by_cases hP0 : P = ['0']
  · subst hP0
    rcases zeros_decomp Q with hQz | ⟨Z, d', Q2, hQdec, hZ, hd'0⟩
    · -- zero-valued right-shift: the scan runs past the whole fraction
      have hσ : getShiftNumPlaces (['0'] ++ decPoint :: (Q ++ expSymbol :: sg :: E)) =
          (Q.length : Int) + 1 := by
        rw [List.singleton_append]
        exact getShift_right_zeros Q (sg :: E) hQz
      have hQrep : Q = List.replicate Q.length '0' := List.eq_replicate_of_mem hQz
      have hDz : ∀ c ∈ ('0' :: Q), c = '0' := by
        intro c hc
        rcases List.mem_cons.1 hc with h | h
        · exact h
        · exact hQz c h
      refine ⟨'0', ['0'], svalZ sg E + -((Q.length : Int) + 1), ?_, ?_, by decide,
        by intro c hc; simp at hc; rw [hc]; decide, by simp, by decide, ?_, ?_, ?_⟩
      · rw [hbase, hσ, shiftBaseDecimalPoint_eq ['0'] Q ((Q.length : Int) + 1)
          (Q.length + 2) (by decide) (by rw [List.length_singleton]; push_cast; ring)]
        have hlen : (['0'] ++ Q).length ≤ Q.length + 2 := by simp
        rw [List.take_of_length_le hlen, List.drop_eq_nil_of_le hlen]
        rw [trimZeroes_base (['0'] ++ Q) [] (by
            intro c hc
            rw [hDz c (by simpa using hc)]
            decide) (by intro c hc; cases hc)]
        rw [dropWhile_all_pos (by
          intro c hc
          rw [hDz c (by simpa using hc)]
          decide)]
        rfl
      · rw [hexpp, hσ, shiftExponent_canonical sg E _ hsg hE hEne]
      · -- both sides denote zero
        have hdz : digitsToNat (['0'] ++ Q) = 0 := by
          rw [List.singleton_append, digitsToNat_cons_zero]
          conv_lhs => rw [hQrep]
          exact digitsToNat_replicate_zero Q.length
        rw [fracValQ, fracValQ, hdz]
        rw [show digitsToNat (['0'] ++ ['0']) = 0 by decide]
        norm_num
      · intro _
        exact ⟨rfl, rfl⟩
      · intro hnz _
        exfalso
        apply hnz
        rw [List.singleton_append, digitsToNat_cons_zero]
        conv_lhs => rw [hQrep]
        exact digitsToNat_replicate_zero Q.length
    · -- right shift onto the first significant fraction digit
      subst hQdec
      have hd'mem : d' ∈ Z ++ d' :: Q2 := List.mem_append.2 (Or.inr (List.mem_cons_self _ _))
      have hd'dig : isDigitC d' = true := hQ d' hd'mem
      have hd'd : d' ≠ decPoint := digit_ne hd'dig (by decide)
      have hσ : getShiftNumPlaces
          (['0'] ++ decPoint :: ((Z ++ d' :: Q2) ++ expSymbol :: sg :: E)) =
          (Z.length : Int) + 1 := by
        rw [List.singleton_append]
        exact getShift_right_sig Z hZ d' hd'0 hd'd Q2 (sg :: E)
      have hZrep : Z = List.replicate Z.length '0' := List.eq_replicate_of_mem hZ
      have hQ2d : AllDigits Q2 := fun c hc =>
        hQ c (List.mem_append.2 (Or.inr (List.mem_cons_of_mem d' hc)))
      refine ⟨d', pad0 (dropTrailZ Q2), svalZ sg E + -((Z.length : Int) + 1), ?_, ?_,
        hd'dig, all_digits_pad0 (fun c hc => hQ2d c (mem_of_mem_dropTrailZ hc)),
        pad0_ne_nil _, pad0_dropTrailZ_stable Q2, ?_, ?_, ?_⟩
      · rw [hbase, hσ, shiftBaseDecimalPoint_eq ['0'] (Z ++ d' :: Q2) ((Z.length : Int) + 1)
          (Z.length + 2) (by decide) (by rw [List.length_singleton]; push_cast; ring)]
        have hsh : ['0'] ++ (Z ++ d' :: Q2) = ('0' :: Z) ++ d' :: Q2 := by simp
        rw [hsh, show Z.length + 2 = ('0' :: Z).length + 1 by simp,
          take_append_len ('0' :: Z) (d' :: Q2) 1, drop_append_len ('0' :: Z) (d' :: Q2) 1,
          List.take_succ_cons, List.take_zero, List.drop_succ_cons, List.drop_zero]
        have hX : AllDigits (('0' :: Z) ++ [d']) := by
          intro c hc
          rcases List.mem_append.1 hc with h | h
          · rcases List.mem_cons.1 h with h1 | h1
            · rw [h1]; decide
            · rw [hZ c h1]; decide
          · simp at h
            rw [h]
            exact hd'dig
        rw [show ('0' :: Z) ++ [d'] ++ decPoint :: Q2 = (('0' :: Z) ++ [d']) ++ decPoint :: Q2
          from rfl, trimZeroes_base _ Q2 hX hQ2d]
        rw [dropWhile_append_stop (by simp [hd'0]),
          dropWhile_all_pos (by
            intro c hc
            rcases List.mem_cons.1 hc with h1 | h1
            · rw [h1]; rfl
            · rw [hZ c h1]; rfl)]
        rw [show ([] : List Char) ++ [d'] = [d'] from rfl, pad0, if_neg (by simp)]
        rfl
      · rw [hexpp, hσ, shiftExponent_canonical sg E _ hsg hE hEne]
      · rw [fracValQ_trim [d'] Q2, fracValQ_zpow [d'] Q2, fracValQ_zpow ['0'] (Z ++ d' :: Q2)]
        rw [List.singleton_append, List.singleton_append, digitsToNat_cons_zero]
        have hdig : digitsToNat (Z ++ d' :: Q2) = digitsToNat (d' :: Q2) := by
          conv_lhs => rw [hZrep]
          rw [digitsToNat_zeros_append]
        rw [hdig]
        have hlen : ((Z ++ d' :: Q2).length : Int) = (Z.length : Int) + 1 + Q2.length := by
          rw [List.length_append, List.length_cons]
          push_cast
          ring
        have hexe : svalZ sg E + -((Z.length : Int) + 1) - (Q2.length : Int) =
            svalZ sg E - ((Z ++ d' :: Q2).length : Int) := by omega
        rw [hexe]
      · intro hz
        exfalso
        have hall := all_zero_of_digitsToNat_zero
          (all_digits_append (by intro c hc; simp at hc; rw [hc]; decide) hQ) hz
        exact hd'0 (hall d' (List.mem_append.2 (Or.inr hd'mem)))
      · intro _ _
        exact hd'0
  · -- left shift: the separator lands right after the first base character
    have hσ : getShiftNumPlaces (P ++ decPoint :: (Q ++ expSymbol :: sg :: E)) =
        1 - (P.length : Int) := getShift_left P Q (sg :: E) hP hP0
    cases hD : P ++ Q with
    | nil => exact absurd hD hPQ
    | cons dd D' =>
      have hDd : AllDigits (dd :: D') := hD ▸ all_digits_append hP hQ
      have hdd : isDigitC dd = true := hDd dd (List.mem_cons_self _ _)
      have hD'd : AllDigits D' := fun c hc => hDd c (List.mem_cons_of_mem dd hc)
      have hlen : (P.length : Int) + Q.length = (D'.length : Int) + 1 := by
        have := congrArg List.length hD
        simp at this
        omega
      refine ⟨dd, pad0 (dropTrailZ D'), svalZ sg E + -(1 - (P.length : Int)), ?_, ?_,
        hdd, all_digits_pad0 (fun c hc => hD'd c (mem_of_mem_dropTrailZ hc)),
        pad0_ne_nil _, pad0_dropTrailZ_stable D', ?_, ?_, ?_⟩
      · rw [hbase, hσ, shiftBaseDecimalPoint_eq P Q (1 - (P.length : Int)) 1 hPd
          (by push_cast; ring)]
        rw [hD, List.take_succ_cons, List.take_zero, List.drop_succ_cons, List.drop_zero]
        rw [show [dd] ++ decPoint :: D' = [dd] ++ decPoint :: D' from rfl,
          trimZeroes_base [dd] D' (by intro c hc; simp at hc; rw [hc]; exact hdd) hD'd,
          pad0_single_dropWhile dd]
        rfl
      · rw [hexpp, hσ, shiftExponent_canonical sg E _ hsg hE hEne]
      · rw [fracValQ_trim [dd] D', fracValQ_zpow [dd] D', fracValQ_zpow P Q]
        rw [List.singleton_append, ← hD]
        have hexe : svalZ sg E + -(1 - (P.length : Int)) - (D'.length : Int) =
            svalZ sg E - (Q.length : Int) := by omega
        rw [hexe]
      · intro hz
        have hall := all_zero_of_digitsToNat_zero hDd hz
        constructor
        · exact hall dd (List.mem_cons_self _ _)
        · rw [dropTrailZ_all_zero (fun c hc => hall c (List.mem_cons_of_mem dd hc))]
          rfl
      · intro hnz hPh
        rcases hPh with h1 | ⟨p, P', hPp, hp0⟩
        · exact absurd h1 hP0
        · have : dd = p := by
            rw [hPp] at hD
            rw [List.cons_append] at hD
            injection hD with h2 _
            exact h2.symm
          rw [this]
          exact hp0

/-! ### Characterizing `normalizeExpStr` -/

/-- The explicit sign `normalizeExpStr` guarantees after the marker. -/
def ensurePlus (B : List Char) : List Char :=
  if B.head? = some '+' ∨ B.head? = some '-' then B else '+' :: B

theorem not_mem_append_cons {t c : Char} {xs ys : List Char} (h1 : t ∉ xs) (h2 : t ≠ c)
    (h3 : t ∉ ys) : t ∉ xs ++ c :: ys := by
  intro hm
  rcases List.mem_append.1 hm with h | h
  · exact h1 h
  · rcases List.mem_cons.1 h with h4 | h4
    · exact h2 h4
    · exact h3 h4

/-- The final `+`-insertion step of `normalizeExpStr`, for a string whose
first marker occurrence splits it as `G ++ marker :: B`. -/
theorem plusify_step (G B : List Char) (heG : expSymbol ∉ G) :
    (if jsCharAt (G ++ expSymbol :: B) (indexOfC (G ++ expSymbol :: B) expSymbol + 1) =
          some '+' ∨
        jsCharAt (G ++ expSymbol :: B) (indexOfC (G ++ expSymbol :: B) expSymbol + 1) =
          some '-'
     then G ++ expSymbol :: B
     else insertAt (G ++ expSymbol :: B) (indexOfC (G ++ expSymbol :: B) expSymbol + 1) ['+']) =
    G ++ expSymbol :: ensurePlus B := by
  rw [indexOfC_append B heG, charAt_append_succ G expSymbol B, ensurePlus]
  by_cases hb : B.head? = some '+' ∨ B.head? = some '-'
  · rw [if_pos hb, if_pos hb]
  · rw [if_neg hb, if_neg hb,
      show G ++ expSymbol :: B = (G ++ [expSymbol]) ++ B by simp,
      show (G.length : Int) + 1 = (((G ++ [expSymbol]).length : Nat) : Int) by
        simp,
      insertAt_nat]
    simp

/-- `normalizeExpStr` when the (trimmed, lowercased) input has neither a
separator nor a marker. -/
theorem normalizeExpStr_plain (s e0 : List Char) (he : (jsTrim s).map jsToLower = e0)
    (h1 : decPoint ∉ e0) (h2 : expSymbol ∉ e0) :
    normalizeExpStr s = e0 ++ [decPoint, '0', expSymbol, '+', '0'] := by
  simp only [normalizeExpStr, he, indexOfC_not_mem h1, indexOfC_not_mem h2]
  norm_num

/-- `normalizeExpStr` when the input has a marker but no separator:
`".0"` is inserted in front of the marker and a sign is ensured. -/
theorem normalizeExpStr_exp_only (s A B : List Char)
    (he : (jsTrim s).map jsToLower = A ++ expSymbol :: B)
    (hdot : decPoint ∉ A ++ expSymbol :: B) (hA : expSymbol ∉ A) :
    normalizeExpStr s = (A ++ [decPoint, '0']) ++ expSymbol :: ensurePlus B := by
  have hidx : indexOfC (A ++ expSymbol :: B) expSymbol = (A.length : Int) :=
    indexOfC_append _ hA
  have hins := insertAt_nat A (expSymbol :: B) [decPoint, '0']
  have hA2 : expSymbol ∉ A ++ [decPoint, '0'] := by
    intro hm
    rcases List.mem_append.1 hm with h | h
    · exact hA h
    · simp at h
      rcases h with h | h <;> exact absurd h (by decide)
  simp only [normalizeExpStr, he, indexOfC_not_mem hdot, hidx]
  rw [if_neg (show ¬ ((-1 : Int) < 0 ∧ (A.length : Int) < 0) by omega)]
  simp only [if_pos (show (-1 : Int) < 0 by norm_num),
    if_neg (show ¬ ((-1 : Int) = 0) by norm_num), hins,
    indexOfC_append B hA2]
  rw [if_neg (show ¬ (((A ++ [decPoint, '0']).length : Int) < 0) by omega)]
  exact plusify_step (A ++ [decPoint, '0']) B hA2

/-- `normalizeExpStr` when the input has a separator but no marker:
a `"0"` is prepended when the separator is first, and `"e+0"` appended. -/
theorem normalizeExpStr_dot_only (s C D : List Char)
    (he : (jsTrim s).map jsToLower = C ++ decPoint :: D)
    (hC : decPoint ∉ C) (heC : expSymbol ∉ C) (heD : expSymbol ∉ D) :
    normalizeExpStr s =
      ((if C = [] then ['0'] else []) ++ (C ++ decPoint :: D)) ++ [expSymbol, '+', '0'] := by
  have hidxd : indexOfC (C ++ decPoint :: D) decPoint = (C.length : Int) :=
    indexOfC_append _ hC
  have hnem : expSymbol ∉ C ++ decPoint :: D := not_mem_append_cons heC (by decide) heD
  simp only [normalizeExpStr, he, hidxd, indexOfC_not_mem hnem]
  rw [if_neg (show ¬ ((C.length : Int) < 0 ∧ (-1 : Int) < 0) by omega)]
  simp only [if_neg (show ¬ ((C.length : Int) < 0) by omega),
    if_pos (show (-1 : Int) < 0 by norm_num)]
  set pre : List Char := if C = [] then ['0'] else [] with hpre
  have he2 : (if (C.length : Int) = 0 then '0' :: (C ++ decPoint :: D)
      else C ++ decPoint :: D) = pre ++ (C ++ decPoint :: D) := by
    by_cases hc : C = []
    · rw [if_pos (by rw [hc]; rfl), hpre, if_pos hc]
      rfl
    · rw [if_neg (by
        intro hcon
        apply hc
        have : C.length = 0 := by omega
        exact List.length_eq_zero.1 this), hpre, if_neg hc]
      rfl
  rw [he2]
  have hpre_ne : expSymbol ∉ pre ++ (C ++ decPoint :: D) := by
    intro hm
    rcases List.mem_append.1 hm with h | h
    · rw [hpre] at h
      by_cases hc : C = []
      · rw [if_pos hc] at h
        simp at h
        exact absurd h (by decide)
      · rw [if_neg hc] at h
        cases h
    · exact hnem h
  rw [plusify_step (pre ++ (C ++ decPoint :: D)) ['+', '0'] hpre_ne]
  have hens : ensurePlus ['+', '0'] = ['+', '0'] := by decide
  rw [hens, hpre]

/-- `normalizeExpStr` when the input has a separator and, later, a marker. -/
theorem normalizeExpStr_dot_exp (s C D1 B : List Char)
    (he : (jsTrim s).map jsToLower = C ++ decPoint :: (D1 ++ expSymbol :: B))
    (hC : decPoint ∉ C) (heC : expSymbol ∉ C) (heD : expSymbol ∉ D1) :
    normalizeExpStr s =
      ((if C = [] then ['0'] else []) ++ (C ++ decPoint :: D1)) ++
        expSymbol :: ensurePlus B := by
  have hidxd : indexOfC (C ++ decPoint :: (D1 ++ expSymbol :: B)) decPoint =
      (C.length : Int) := indexOfC_append _ hC
  have hCD : expSymbol ∉ C ++ decPoint :: D1 := not_mem_append_cons heC (by decide) heD
  have hidxe : indexOfC (C ++ decPoint :: (D1 ++ expSymbol :: B)) expSymbol =
      (((C ++ decPoint :: D1).length : Nat) : Int) := by
    conv_lhs => rw [show C ++ decPoint :: (D1 ++ expSymbol :: B) =
      (C ++ decPoint :: D1) ++ expSymbol :: B by simp]
    exact indexOfC_append _ hCD
  simp only [normalizeExpStr, he, hidxd, hidxe]
  rw [if_neg (show ¬ ((C.length : Int) < 0 ∧
    (((C ++ decPoint :: D1).length : Nat) : Int) < 0) by omega)]
  simp only [if_neg (show ¬ ((C.length : Int) < 0) by omega),
    if_neg (show ¬ ((((C ++ decPoint :: D1).length : Nat) : Int) < 0) by omega)]
  set pre : List Char := if C = [] then ['0'] else [] with hpre
  have he2 : (if (C.length : Int) = 0 then '0' :: (C ++ decPoint :: (D1 ++ expSymbol :: B))
      else C ++ decPoint :: (D1 ++ expSymbol :: B)) =
      (pre ++ (C ++ decPoint :: D1)) ++ expSymbol :: B := by
    by_cases hc : C = []
    · rw [if_pos (by rw [hc]; rfl), hpre, if_pos hc]
      simp
    · rw [if_neg (by
        intro hcon
        apply hc
        have : C.length = 0 := by omega
        exact List.length_eq_zero.1 this), hpre, if_neg hc]
      simp
  rw [he2]
  have hpre_ne : expSymbol ∉ pre ++ (C ++ decPoint :: D1) := by
    intro hm
    rcases List.mem_append.1 hm with h | h
    · rw [hpre] at h
      by_cases hc : C = []
      · rw [if_pos hc] at h
        simp at h
        exact absurd h (by decide)
      · rw [if_neg hc] at h
        cases h
    · exact hCD h
  rw [plusify_step (pre ++ (C ++ decPoint :: D1)) B hpre_ne, hpre]

/-- `normalizeExpStr` when the first marker occurs before the separator
(possible only for malformed input; needed for the well-formedness
invariant). -/
theorem normalizeExpStr_exp_before_dot (s C1 B : List Char)
    (he : (jsTrim s).map jsToLower = C1 ++ expSymbol :: B)
    (hdC : decPoint ∉ C1) (heC : expSymbol ∉ C1) (hdB : decPoint ∈ B) :
    normalizeExpStr s = C1 ++ expSymbol :: ensurePlus B := by
  have hdmem : decPoint ∈ C1 ++ expSymbol :: B :=
    List.mem_append.2 (Or.inr (List.mem_cons_of_mem _ hdB))
  have hd0 : 0 ≤ indexOfC (C1 ++ expSymbol :: B) decPoint := indexOfC_nonneg hdmem
  have hdne : ¬ (indexOfC (C1 ++ expSymbol :: B) decPoint = 0) := by
    intro hcon
    have hh := indexOfC_zero_head hcon
    cases hC1 : C1 with
    | nil =>
      rw [hC1] at hh
      simp at hh
      exact absurd hh.symm (by decide)
    | cons c C1' =>
      rw [hC1] at hh
      simp at hh
      exact hdC (by rw [hC1, ← hh]; exact List.mem_cons_self _ _)
  have hidxe : indexOfC (C1 ++ expSymbol :: B) expSymbol = ((C1.length : Nat) : Int) :=
    indexOfC_append _ heC
  simp only [normalizeExpStr, he, hidxe]
  rw [if_neg (show ¬ (indexOfC (C1 ++ expSymbol :: B) decPoint < 0 ∧
    ((C1.length : Nat) : Int) < 0) by omega)]
  simp only [if_neg (show ¬ (indexOfC (C1 ++ expSymbol :: B) decPoint < 0) by omega),
    if_neg hdne, if_neg (show ¬ (((C1.length : Nat) : Int) < 0) by omega)]
  exact plusify_step C1 B heC

/-! ### Reconstructing a string from the parser pieces -/

theorem map_id_of {f : Char → Char} : ∀ {l : List Char}, (∀ c ∈ l, f c = c) → l.map f = l
  | [], _ => rfl
  | c :: l, h => by
    rw [List.map_cons, h c (List.mem_cons_self c l),
      map_id_of fun x hx => h x (List.mem_cons_of_mem c hx)]

theorem map_lower_digit_list {l : List Char} (h : AllDigits l) : l.map jsToLower = l :=
  map_id_of fun c hc => jsToLower_digit (h c hc)

theorem notWS_digit_list {l : List Char} (h : AllDigits l) : ∀ c ∈ l, isJsWS c = false :=
  fun c hc => isJsWS_digit (h c hc)

theorem takeWhile_drop_split (p : Char → Bool) : ∀ l : List Char,
    l = l.takeWhile p ++ l.drop (l.takeWhile p).length
  | [] => rfl
  | c :: l => by
    rw [List.takeWhile_cons]
    by_cases hc : p c
    · rw [if_pos hc, List.length_cons, List.drop_succ_cons, List.cons_append]
      exact congrArg (c :: ·) (takeWhile_drop_split p l)
    · rw [if_neg hc]
      simp

theorem head?_cons_decomp {l : List Char} {c : Char} (h : l.head? = some c) :
    l = c :: l.drop 1 := by
  cases l with
  | nil => cases h
  | cons x t =>
    have : x = c := by injection h
    rw [this]
    rfl

theorem drop_takeWhile_len (p : Char → Bool) : ∀ l : List Char,
    l.drop (l.takeWhile p).length = l.dropWhile p
  | [] => rfl
  | c :: l => by
    rw [List.takeWhile_cons, List.dropWhile_cons]
    by_cases hc : p c
    · rw [if_pos hc, if_pos hc, List.length_cons, List.drop_succ_cons,
        drop_takeWhile_len p l]
    · rw [if_neg hc, if_neg hc]
      rfl

theorem head_dropWhile_neg (p : Char → Bool) : ∀ (l : List Char) {c : Char},
    (l.dropWhile p).head? = some c → p c = false
  | [], _, h => by cases h
  | x :: l, c, h => by
    rw [List.dropWhile_cons] at h
    by_cases hx : p x
    · rw [if_pos hx] at h
      exact head_dropWhile_neg p l h
    · rw [if_neg hx] at h
      have : x = c := by injection h
      rw [← this]
      exact Bool.of_not_eq_true hx

theorem sv_sign_split (l : List Char) : l = (if svNeg l then ['-'] else []) ++ svL1 l := by
  rw [svL1, svNeg]
  by_cases h : l.head? = some '-'
  · simp only [h, decide_True, if_true, List.singleton_append]
    exact head?_cons_decomp h
  · simp [h]

theorem sv_l1_split (l : List Char) : svL1 l = svI l ++ svL2 l := by
  rw [svI, svL2, svI]
  exact takeWhile_drop_split isDigitC (svL1 l)

theorem sv_l2_split (l : List Char) :
    svL2 l = (if svPt l then [decPoint] else []) ++ svR2 l := by
  rw [svR2, svPt]
  by_cases h : (svL2 l).head? = some decPoint
  · simp only [h, decide_True, if_true, List.singleton_append]
    exact head?_cons_decomp h
  · simp [h]

theorem sv_r2_split (l : List Char) (h : svPt l = true) : svR2 l = svF l ++ svL3 l := by
  rw [svL3, svF, if_pos h, if_pos h]
  exact takeWhile_drop_split isDigitC (svR2 l)

theorem sv_no_pt (l : List Char) (h : svPt l = false) : svF l = [] ∧ svL3 l = svL2 l := by
  rw [svF, svL3, h]
  simp

theorem sv_r4_split (l : List Char) : svR4 l = svE l ++ (svR4 l).drop (svE l).length := by
  rw [svE]
  exact takeWhile_drop_split isDigitC (svR4 l)

theorem sv_r3_split (l : List Char) :
    svR3 l = (if svHasESign l then [(svR3 l).headD ' '] else []) ++ svR4 l := by
  rw [svR4, svHasESign]
  by_cases h : (svR3 l).head? = some '-' ∨ (svR3 l).head? = some '+'
  · simp only [h, decide_True, if_true, List.singleton_append]
    rcases h with h | h <;>
      (rw [show (svR3 l).headD ' ' = ((svR3 l).head?).getD ' ' from (List.headD_eq_head? _ _),
        h]
       exact head?_cons_decomp h)
  · simp [h]

theorem svI_digits (l : List Char) : AllDigits (svI l) := fun _ hc =>
  List.mem_takeWhile_imp hc

theorem svF_digits (l : List Char) : AllDigits (svF l) := by
  rw [svF]
  by_cases h : svPt l
  · rw [if_pos h]
    exact fun _ hc => List.mem_takeWhile_imp hc
  · rw [if_neg h]
    intro c hc
    cases hc

theorem svE_digits (l : List Char) : AllDigits (svE l) := fun _ hc =>
  List.mem_takeWhile_imp hc

theorem svL2_head_not_digit (l : List Char) {c : Char} (h : (svL2 l).head? = some c) :
    isDigitC c = false := by
  rw [svL2, svI, drop_takeWhile_len] at h
  exact head_dropWhile_neg isDigitC (svL1 l) h

theorem svL3_head_not_digit (l : List Char) (hpt : svPt l = true) {c : Char}
    (h : (svL3 l).head? = some c) : isDigitC c = false := by
  rw [svL3, if_pos hpt, svF, if_pos hpt, drop_takeWhile_len] at h
  exact head_dropWhile_neg isDigitC (svR2 l) h

/-- `strValue` on a string of the exact shape the normalizer produces. -/
theorem strValue_out (neg : Bool) (d : Char) (Y : List Char) (sg2 : Char) (E2 : List Char)
    (hd : isDigitC d = true) (hY : AllDigits Y) (hsg : sg2 = '+' ∨ sg2 = '-')
    (hE : AllDigits E2) (hEne : E2 ≠ []) :
    strValue ((if neg then ['-'] else []) ++ (d :: decPoint :: (Y ++ expSymbol :: sg2 :: E2))) =
      some ((if neg then -1 else 1) * (fracValQ [d] Y * (10 : ℚ) ^ svalZ sg2 E2)) := by
  set o := (if neg then ['-'] else []) ++ (d :: decPoint :: (Y ++ expSymbol :: sg2 :: E2))
    with ho
  have hneg : svNeg o = neg := by
    rw [svNeg, ho]
    cases neg
    · have hdm : d ≠ '-' := digit_ne hd (by decide)
      simp [hdm]
    · simp
  have hl1 : svL1 o = d :: decPoint :: (Y ++ expSymbol :: sg2 :: E2) := by
    rw [svL1, hneg, ho]
    cases neg
    · simp
    · simp
  have hsvI : svI o = [d] := by
    rw [svI, hl1, List.takeWhile_cons, if_pos hd, List.takeWhile_cons,
      if_neg (by decide : ¬ (isDigitC decPoint = true))]
  have hsvL2 : svL2 o = decPoint :: (Y ++ expSymbol :: sg2 :: E2) := by
    rw [svL2, hl1, hsvI]
    rfl
  have hsvPt : svPt o = true := by
    rw [svPt, hsvL2]
    simp
  have hsvR2 : svR2 o = Y ++ expSymbol :: sg2 :: E2 := by
    rw [svR2, if_pos hsvPt, hsvL2]
    rfl
  have hsvF : svF o = Y := by
    rw [svF, if_pos hsvPt, hsvR2]
    refine takeWhile_append_stop hY ?_
    intro y hy
    have : expSymbol = y := by injection hy
    rw [← this]
    decide
  have hsvL3 : svL3 o = expSymbol :: sg2 :: E2 := by
    rw [svL3, if_pos hsvPt, hsvF, hsvR2, List.drop_left]
  have hsvR3 : svR3 o = sg2 :: E2 := by
    rw [svR3, hsvL3]
    rfl
  have hsign : svHasESign o = true := by
    rw [svHasESign, hsvR3]
    rcases hsg with rfl | rfl <;> simp
  have hR4 : svR4 o = E2 := by
    rw [svR4, if_pos hsign, hsvR3]
    rfl
  have hE2 : svE o = E2 := by
    rw [svE, hR4]
    exact takeWhile_all hE
  have hesgn : svESgn o = (if sg2 = '-' then -1 else 1) := by
    rw [svESgn, hsvR3]
    rcases hsg with rfl | rfl <;> simp
  rw [strValue, hsvI, hsvF, hsvL3, hE2, hR4]
  rw [if_neg (by simp : ¬ (([d] : List Char) ++ Y = [])),
    if_neg (by simp : ¬ ((expSymbol :: sg2 :: E2 : List Char) = [])),
    if_pos (Or.inl rfl : (expSymbol :: sg2 :: E2 : List Char).head? = some 'e' ∨
      (expSymbol :: sg2 :: E2 : List Char).head? = some 'E'),
    if_neg (by simp [hEne, List.drop_length] : ¬ (E2 = [] ∨ E2.drop E2.length ≠ []))]
  rw [svBase, hneg, hsvI, hsvF, fracValQ, svalZ, hesgn]
  congr 1
  ring

/-! ### Canonicalization of every parseable input -/

theorem forall_mem_if_sign (b : Bool) (p : Char → Prop) (hp : p '-') :
    ∀ c ∈ (if b then ['-'] else ([] : List Char)), p c := by
  cases b
  · intro c hc
    cases hc
  · intro c hc
    simp at hc
    rw [hc]
    exact hp

theorem map_lower_marker (A B : List Char) (m : Char) (hm : m = 'e' ∨ m = 'E')
    (hA : ∀ c ∈ A, jsToLower c = c) (hB : ∀ c ∈ B, jsToLower c = c) :
    (A ++ m :: B).map jsToLower = A ++ expSymbol :: B := by
  rw [List.map_append, map_id_of hA, List.map_cons, map_id_of hB]
  rcases hm with rfl | rfl
  · rw [show jsToLower 'e' = expSymbol by decide]
  · rw [show jsToLower 'E' = expSymbol by decide]

theorem allDigits_zero : AllDigits ['0'] := by
  intro c hc
  simp at hc
  rw [hc]
  decide

theorem massage_preP (b : Bool) (I D tail : List Char) :
    ((if ((if b then ['-'] else []) ++ I) = [] then ['0'] else []) ++
      (((if b then ['-'] else []) ++ I) ++ decPoint :: D)) ++ tail =
    (if b then ['-'] else []) ++
      (((if b = true then [] else (if I = [] then ['0'] else [])) ++ I) ++
        decPoint :: (D ++ tail)) := by
  cases b <;> simp [List.append_assoc]

theorem massage_noPt (b : Bool) (I tail : List Char) :
    (((if b then ['-'] else []) ++ I) ++ [decPoint, '0']) ++ tail =
    (if b then ['-'] else []) ++ (I ++ decPoint :: (['0'] ++ tail)) := by
  cases b <;> simp [List.append_assoc]

theorem fracValQ_preP (b : Bool) (I D : List Char) :
    fracValQ ((if b = true then [] else (if I = [] then ['0'] else [])) ++ I) D =
      fracValQ I D := by
  cases b
  · rw [if_neg (by simp)]
    by_cases hi : I = []
    · rw [if_pos hi, show (['0'] : List Char) = List.replicate 1 '0' from rfl,
        fracValQ_zeros_pre]
    · rw [if_neg hi, List.nil_append]
  · rw [if_pos rfl, List.nil_append]

theorem fracValQ_zero_frac (X : List Char) : fracValQ X ['0'] = (digitsToNat X : ℚ) := by
  have h := fracValQ_pad_nil X
  rw [show pad0 ([] : List Char) = ['0'] from rfl] at h
  rw [h, fracValQ, List.append_nil, List.length_nil, pow_zero, div_one]

/-- Every string accepted by the value parser is canonicalized by
`normalizeExpStr` into sign, base `P . Q`, and signed exponent `sg E`,
preserving the denoted value. -/
theorem canon_valid (s : List Char) (hs : (strValue s).isSome = true) :
    ∃ (neg : Bool) (P Q : List Char) (sg : Char) (E : List Char),
      AllDigits P ∧ AllDigits Q ∧ AllDigits E ∧ E ≠ [] ∧ (sg = '+' ∨ sg = '-') ∧
      P ++ Q ≠ [] ∧
      normalizeExpStr s =
        (if neg then ['-'] else []) ++ (P ++ decPoint :: (Q ++ expSymbol :: sg :: E)) ∧
      strValue s = some ((if neg then -1 else 1) *
        (fracValQ P Q * (10 : ℚ) ^ svalZ sg E)) := by
  have hI : AllDigits (svI s) := svI_digits s
  have hF : AllDigits (svF s) := svF_digits s
  have hIlow : ∀ c ∈ svI s, jsToLower c = c := fun c hc => jsToLower_digit (hI c hc)
  have hFlow : ∀ c ∈ svF s, jsToLower c = c := fun c hc => jsToLower_digit (hF c hc)
  have hIws : ∀ c ∈ svI s, isJsWS c = false := notWS_digit_list hI
  have hFws : ∀ c ∈ svF s, isJsWS c = false := notWS_digit_list hF
  have hIdot : decPoint ∉ svI s := not_mem_of_all_digits hI (by decide)
  have hIexp : expSymbol ∉ svI s := not_mem_of_all_digits hI (by decide)
  have hFexp : expSymbol ∉ svF s := not_mem_of_all_digits hF (by decide)
  have hc1 : ¬ (svI s ++ svF s = []) := by
    intro hcon
    rw [strValue, if_pos hcon] at hs
    simp at hs
  have hsgn_ws : ∀ c ∈ (if svNeg s then ['-'] else ([] : List Char)), isJsWS c = false :=
    forall_mem_if_sign _ _ (by decide)
  have hsgn_low : ∀ c ∈ (if svNeg s then ['-'] else ([] : List Char)), jsToLower c = c :=
    forall_mem_if_sign _ _ (by decide)
  have hsgn_dot : decPoint ∉ (if svNeg s then ['-'] else ([] : List Char)) := by
    intro hm
    exact absurd (forall_mem_if_sign (svNeg s) (· = '-') rfl decPoint hm) (by decide)
  have hsgn_exp : expSymbol ∉ (if svNeg s then ['-'] else ([] : List Char)) := by
    intro hm
    exact absurd (forall_mem_if_sign (svNeg s) (· = '-') rfl expSymbol hm) (by decide)
  by_cases hc2 : svL3 s = []
  · -- no exponent part in the input
    have hval : strValue s = some (svBase s) := by
      rw [strValue, if_neg hc1, if_pos hc2]
    by_cases hpt : svPt s = true
    · -- shape: sign ++ I ++ '.' ++ F
      have hsplit2 : svL2 s = decPoint :: svR2 s := by
        have h := sv_l2_split s
        rw [if_pos hpt] at h
        simpa using h
      have hsplit3 : svR2 s = svF s := by
        have h := sv_r2_split s hpt
        rw [hc2, List.append_nil] at h
        exact h
      have hs_shape : s = (if svNeg s then ['-'] else []) ++
          (svI s ++ decPoint :: svF s) := by
        conv_lhs => rw [sv_sign_split s]
        rw [sv_l1_split s, hsplit2, hsplit3]
      have hlow1 : ∀ c ∈ (if svNeg s then ['-'] else []) ++ (svI s ++ decPoint :: svF s),
          jsToLower c = c := by
        refine (List.forall_mem_append).2 ⟨hsgn_low, ?_⟩
        refine (List.forall_mem_append).2 ⟨hIlow, ?_⟩
        intro c hc
        rcases List.mem_cons.1 hc with h | h
        · rw [h]; decide
        · exact hFlow c h
      have hws1 : ∀ c ∈ (if svNeg s then ['-'] else []) ++ (svI s ++ decPoint :: svF s),
          isJsWS c = false := by
        refine (List.forall_mem_append).2 ⟨hsgn_ws, ?_⟩
        refine (List.forall_mem_append).2 ⟨hIws, ?_⟩
        intro c hc
        rcases List.mem_cons.1 hc with h | h
        · rw [h]; decide
        · exact hFws c h
      have he0 : (jsTrim s).map jsToLower =
          ((if svNeg s then ['-'] else []) ++ svI s) ++ decPoint :: svF s := by
        conv_lhs => rw [hs_shape]
        rw [jsTrim_eq_self hws1, map_id_of hlow1]
        simp [List.append_assoc]
      have hcanon := normalizeExpStr_dot_only s ((if svNeg s then ['-'] else []) ++ svI s)
        (svF s) he0
        (by
          intro hm
          rcases List.mem_append.1 hm with h | h
          · exact hsgn_dot h
          · exact hIdot h)
        (by
          intro hm
          rcases List.mem_append.1 hm with h | h
          · exact hsgn_exp h
          · exact hIexp h)
        hFexp
      refine ⟨svNeg s,
        (if svNeg s = true then [] else (if svI s = [] then ['0'] else [])) ++ svI s,
        svF s, '+', ['0'], ?_, hF, allDigits_zero, by simp, Or.inl rfl, ?_, ?_, ?_⟩
      · refine (List.forall_mem_append).2 ⟨?_, hI⟩
        by_cases hb : svNeg s = true
        · rw [if_pos hb]
          intro c hc
          cases hc
        · rw [if_neg hb]
          by_cases hi : svI s = []
          · rw [if_pos hi]
            intro c hc
            simp at hc
            rw [hc]
            decide
          · rw [if_neg hi]
            intro c hc
            cases hc
      · by_cases hb : svNeg s = true
        · rw [if_pos hb, List.nil_append]
          exact hc1
        · rw [if_neg hb]
          by_cases hi : svI s = []
          · rw [if_pos hi]
            simp
          · rw [if_neg hi]
            simp [hi]
      · rw [hcanon, massage_preP (svNeg s) (svI s) (svF s) [expSymbol, '+', '0']]
      · rw [hval]
        congr 1
        rw [svBase, fracValQ_preP, show svalZ '+' ['0'] = 0 by decide, zpow_zero, mul_one,
          fracValQ]
        ring
    · -- shape: sign ++ I, no point, no exponent
      have hptf : svPt s = false := by
        cases h : svPt s
        · rfl
        · exact absurd h hpt
      have hnp := sv_no_pt s hptf
      have hL2 : svL2 s = [] := by rw [← hnp.2, hc2]
      have hFnil : svF s = [] := hnp.1
      have hIne : svI s ≠ [] := by
        intro hcon
        exact hc1 (by rw [hcon, hFnil]; rfl)
      have hs_shape : s = (if svNeg s then ['-'] else []) ++ svI s := by
        conv_lhs => rw [sv_sign_split s]
        rw [sv_l1_split s, hL2, List.append_nil]
      have he0 : (jsTrim s).map jsToLower = (if svNeg s then ['-'] else []) ++ svI s := by
        conv_lhs => rw [hs_shape]
        rw [jsTrim_eq_self ((List.forall_mem_append).2 ⟨hsgn_ws, hIws⟩),
          map_id_of ((List.forall_mem_append).2 ⟨hsgn_low, hIlow⟩)]
      have hcanon := normalizeExpStr_plain s _ he0
        (by
          intro hm
          rcases List.mem_append.1 hm with h | h
          · exact hsgn_dot h
          · exact hIdot h)
        (by
          intro hm
          rcases List.mem_append.1 hm with h | h
          · exact hsgn_exp h
          · exact hIexp h)
      refine ⟨svNeg s, svI s, ['0'], '+', ['0'], hI, allDigits_zero, allDigits_zero,
        by simp, Or.inl rfl, by simp [hIne], ?_, ?_⟩
      · rw [hcanon]
        cases svNeg s <;> simp
      · rw [hval]
        congr 1
        rw [svBase, hFnil, fracValQ_zero_frac, show svalZ '+' ['0'] = 0 by decide,
          zpow_zero, mul_one, List.append_nil, List.length_nil, pow_zero, div_one]
  · -- exponent part present
    have hc3 : (svL3 s).head? = some 'e' ∨ (svL3 s).head? = some 'E' := by
      by_contra hcon
      rw [strValue, if_neg hc1, if_neg hc2, if_neg hcon] at hs
      simp at hs
    have hc4 : ¬ (svE s = [] ∨ (svR4 s).drop (svE s).length ≠ []) := by
      intro hcon
      rw [strValue, if_neg hc1, if_neg hc2, if_pos hc3, if_pos hcon] at hs
      simp at hs
    have hval : strValue s =
        some (svBase s * (10 : ℚ) ^ (svESgn s * (digitsToNat (svE s) : Int))) := by
      rw [strValue, if_neg hc1, if_neg hc2, if_pos hc3, if_neg hc4]
    have hEne : svE s ≠ [] := fun h => hc4 (Or.inl h)
    have hEd : AllDigits (svE s) := svE_digits s
    have hdrop : (svR4 s).drop (svE s).length = [] := by
      by_contra h
      exact hc4 (Or.inr h)
    have hr4 : svR4 s = svE s := by
      conv_lhs => rw [sv_r4_split s]
      rw [hdrop, List.append_nil]
    obtain ⟨m, hm, hl3⟩ : ∃ m, (m = 'e' ∨ m = 'E') ∧ svL3 s = m :: svR3 s := by
      rcases hc3 with h | h
      · exact ⟨'e', Or.inl rfl, by rw [svR3]; exact head?_cons_decomp h⟩
      · exact ⟨'E', Or.inr rfl, by rw [svR3]; exact head?_cons_decomp h⟩
    obtain ⟨sg, hsgpm, hensure, hesgn, hR3ws, hR3low, hR3dot, hR3exp⟩ :
        ∃ sg, (sg = '+' ∨ sg = '-') ∧ ensurePlus (svR3 s) = sg :: svE s ∧
          svESgn s = (if sg = '-' then (-1 : Int) else 1) ∧
          (∀ c ∈ svR3 s, isJsWS c = false) ∧ (∀ c ∈ svR3 s, jsToLower c = c) ∧
          decPoint ∉ svR3 s ∧ expSymbol ∉ svR3 s := by
      have hEws : ∀ c ∈ svE s, isJsWS c = false := notWS_digit_list hEd
      have hElow : ∀ c ∈ svE s, jsToLower c = c := fun c hc => jsToLower_digit (hEd c hc)
      have hEdot : decPoint ∉ svE s := not_mem_of_all_digits hEd (by decide)
      have hEexp : expSymbol ∉ svE s := not_mem_of_all_digits hEd (by decide)
      by_cases hsign : svHasESign s = true
      · have hc : (svR3 s).head? = some '-' ∨ (svR3 s).head? = some '+' := by
          have := hsign
          rw [svHasESign] at this
          simpa using this
        obtain ⟨c, hcval, hhead⟩ : ∃ c, (c = '+' ∨ c = '-') ∧ (svR3 s).head? = some c := by
          rcases hc with h | h
          · exact ⟨'-', Or.inr rfl, h⟩
          · exact ⟨'+', Or.inl rfl, h⟩
        have hr3 : svR3 s = c :: svE s := by
          have h1 := head?_cons_decomp hhead
          have h2 : (svR3 s).drop 1 = svR4 s := by
            rw [svR4, if_pos hsign]
          rw [h2, hr4] at h1
          exact h1
        refine ⟨c, hcval, ?_, ?_, ?_, ?_, ?_, ?_⟩
        · rw [hr3, ensurePlus, if_pos]
          rcases hcval with rfl | rfl
          · exact Or.inl rfl
          · exact Or.inr rfl
        · rw [svESgn, hhead]
          rcases hcval with rfl | rfl <;> simp
        · rw [hr3]
          intro x hx
          rcases List.mem_cons.1 hx with h | h
          · rw [h]
            rcases hcval with rfl | rfl <;> decide
          · exact hEws x h
        · rw [hr3]
          intro x hx
          rcases List.mem_cons.1 hx with h | h
          · rw [h]
            rcases hcval with rfl | rfl <;> decide
          · exact hElow x h
        · rw [hr3]
          intro hx
          rcases List.mem_cons.1 hx with h | h
          · rcases hcval with rfl | rfl <;> exact absurd h (by decide)
          · exact hEdot h
        · rw [hr3]
          intro hx
          rcases List.mem_cons.1 hx with h | h
          · rcases hcval with rfl | rfl <;> exact absurd h (by decide)
          · exact hEexp h
      · have hsignf : svHasESign s = false := by
          cases h : svHasESign s
          · rfl
          · exact absurd h hsign
        have hr3 : svR3 s = svE s := by
          have h := sv_r3_split s
          rw [hsignf] at h
          simp at h
          rw [h, hr4]
        cases hEcase : svE s with
        | nil => exact absurd hEcase hEne
        | cons c rest =>
          have hcd : isDigitC c = true := hEd c (by rw [hEcase]; exact List.mem_cons_self _ _)
          have hhead : (svR3 s).head? = some c := by rw [hr3, hEcase]; rfl
          refine ⟨'+', Or.inl rfl, ?_, ?_, ?_, ?_, ?_, ?_⟩
          · rw [ensurePlus, if_neg, hr3, hEcase]
            intro hcon
            rcases hcon with h | h
            · rw [hhead] at h
              have : c = '+' := by injection h
              exact absurd this (digit_ne hcd (by decide))
            · rw [hhead] at h
              have : c = '-' := by injection h
              exact absurd this (digit_ne hcd (by decide))
          · rw [svESgn, hhead, if_neg]
            · simp
            · intro h
              have : c = '-' := by injection h
              exact absurd this (digit_ne hcd (by decide))
          · rw [hr3]; exact hEws
          · rw [hr3]; exact hElow
          · rw [hr3]; exact hEdot
          · rw [hr3]; exact hEexp
    have hsvalE : svESgn s * (digitsToNat (svE s) : Int) = svalZ sg (svE s) := by
      rw [svalZ, hesgn]
    by_cases hpt : svPt s = true
    · -- shape: sign ++ I ++ '.' ++ F ++ marker ++ R3
      have hsplit2 : svL2 s = decPoint :: svR2 s := by
        have h := sv_l2_split s
        rw [if_pos hpt] at h
        simpa using h
      have hs_shape : s = ((if svNeg s then ['-'] else []) ++
          (svI s ++ decPoint :: svF s)) ++ m :: svR3 s := by
        conv_lhs => rw [sv_sign_split s]
        rw [sv_l1_split s, hsplit2, sv_r2_split s hpt, hl3]
        simp [List.append_assoc]
      have hlowA : ∀ c ∈ (if svNeg s then ['-'] else []) ++ (svI s ++ decPoint :: svF s),
          jsToLower c = c := by
        refine (List.forall_mem_append).2 ⟨hsgn_low, ?_⟩
        refine (List.forall_mem_append).2 ⟨hIlow, ?_⟩
        intro c hc
        rcases List.mem_cons.1 hc with h | h
        · rw [h]; decide
        · exact hFlow c h
      have hws1 : ∀ c ∈ ((if svNeg s then ['-'] else []) ++
          (svI s ++ decPoint :: svF s)) ++ m :: svR3 s, isJsWS c = false := by
        refine (List.forall_mem_append).2 ⟨?_, ?_⟩
        · refine (List.forall_mem_append).2 ⟨hsgn_ws, ?_⟩
          refine (List.forall_mem_append).2 ⟨hIws, ?_⟩
          intro c hc
          rcases List.mem_cons.1 hc with h | h
          · rw [h]; decide
          · exact hFws c h
        · intro c hc
          rcases List.mem_cons.1 hc with h | h
          · rw [h]
            rcases hm with rfl | rfl <;> decide
          · exact hR3ws c h
      have he0 : (jsTrim s).map jsToLower =
          ((if svNeg s then ['-'] else []) ++ svI s) ++
            decPoint :: (svF s ++ expSymbol :: svR3 s) := by
        conv_lhs => rw [hs_shape]
        rw [jsTrim_eq_self hws1, map_lower_marker _ _ m hm hlowA hR3low]
        simp [List.append_assoc]
      have hcanon := normalizeExpStr_dot_exp s
        ((if svNeg s then ['-'] else []) ++ svI s) (svF s) (svR3 s) he0
        (by
          intro hm2
          rcases List.mem_append.1 hm2 with h | h
          · exact hsgn_dot h
          · exact hIdot h)
        (by
          intro hm2
          rcases List.mem_append.1 hm2 with h | h
          · exact hsgn_exp h
          · exact hIexp h)
        hFexp
      rw [hensure] at hcanon
      refine ⟨svNeg s,
        (if svNeg s = true then [] else (if svI s = [] then ['0'] else [])) ++ svI s,
        svF s, sg, svE s, ?_, hF, hEd, hEne, hsgpm, ?_, ?_, ?_⟩
      · refine (List.forall_mem_append).2 ⟨?_, hI⟩
        by_cases hb : svNeg s = true
        · rw [if_pos hb]
          intro c hc
          cases hc
        · rw [if_neg hb]
          by_cases hi : svI s = []
          · rw [if_pos hi]
            intro c hc
            simp at hc
            rw [hc]
            decide
          · rw [if_neg hi]
            intro c hc
            cases hc
      · by_cases hb : svNeg s = true
        · rw [if_pos hb, List.nil_append]
          exact hc1
        · rw [if_neg hb]
          by_cases hi : svI s = []
          · rw [if_pos hi]
            simp
          · rw [if_neg hi]
            simp [hi]
      · rw [hcanon, massage_preP (svNeg s) (svI s) (svF s) (expSymbol :: sg :: svE s)]
      · rw [hval]
        congr 1
        rw [svBase, fracValQ_preP, hsvalE, fracValQ]
        ring
    · -- shape: sign ++ I ++ marker ++ R3, no point
      have hptf : svPt s = false := by
        cases h : svPt s
        · rfl
        · exact absurd h hpt
      have hnp := sv_no_pt s hptf
      have hFnil : svF s = [] := hnp.1
      have hIne : svI s ≠ [] := by
        intro hcon
        exact hc1 (by rw [hcon, hFnil]; rfl)
      have hs_shape : s = ((if svNeg s then ['-'] else []) ++ svI s) ++ m :: svR3 s := by
        conv_lhs => rw [sv_sign_split s]
        rw [sv_l1_split s, ← hnp.2, hl3]
        simp [List.append_assoc]
      have hlowA : ∀ c ∈ (if svNeg s then ['-'] else []) ++ svI s, jsToLower c = c :=
        (List.forall_mem_append).2 ⟨hsgn_low, hIlow⟩
      have hws1 : ∀ c ∈ ((if svNeg s then ['-'] else []) ++ svI s) ++ m :: svR3 s,
          isJsWS c = false := by
        refine (List.forall_mem_append).2 ⟨(List.forall_mem_append).2 ⟨hsgn_ws, hIws⟩, ?_⟩
        intro c hc
        rcases List.mem_cons.1 hc with h | h
        · rw [h]
          rcases hm with rfl | rfl <;> decide
        · exact hR3ws c h
      have he0 : (jsTrim s).map jsToLower =
          ((if svNeg s then ['-'] else []) ++ svI s) ++ expSymbol :: svR3 s := by
        conv_lhs => rw [hs_shape]
        rw [jsTrim_eq_self hws1, map_lower_marker _ _ m hm hlowA hR3low]
      have hcanon := normalizeExpStr_exp_only s
        ((if svNeg s then ['-'] else []) ++ svI s) (svR3 s) he0
        (by
          refine not_mem_append_cons ?_ (by decide) hR3dot
          intro hm2
          rcases List.mem_append.1 hm2 with h | h
          · exact hsgn_dot h
          · exact hIdot h)
        (by
          intro hm2
          rcases List.mem_append.1 hm2 with h | h
          · exact hsgn_exp h
          · exact hIexp h)
      rw [hensure] at hcanon
      refine ⟨svNeg s, svI s, ['0'], sg, svE s, hI, allDigits_zero, hEd, hEne, hsgpm,
        by simp [hIne], ?_, ?_⟩
      · rw [hcanon, massage_noPt (svNeg s) (svI s) (expSymbol :: sg :: svE s)]
      · rw [hval]
        congr 1
        rw [svBase, hFnil, fracValQ_zero_frac, hsvalE, List.append_nil, List.length_nil,
          pow_zero, div_one]
        ring

/-- Reduction of `normalizer` once the canonicalized string and its sign
are known. -/
theorem normalizer_eq_of_canon (s : List Char) (neg : Bool) (X : List Char)
    (hcanon : normalizeExpStr s = (if neg then ['-'] else []) ++ X)
    (hhead : neg = false → ¬ (indexOfC X '-' = 0)) :
    normalizer s = (if neg then ['-'] else []) ++
      (shiftBaseDecimalPoint (getBasePart X) (getShiftNumPlaces X) ++
        shiftExponent (getExpPart X) (-(getShiftNumPlaces X))) := by
  cases neg
  · have hX : normalizeExpStr s = X := by rw [hcanon]; rfl
    have hni := hhead rfl
    simp only [normalizer, hX, if_neg hni]
    simp
  · have hX : normalizeExpStr s = '-' :: X := by rw [hcanon]; rfl
    have hpos : indexOfC ('-' :: X) '-' = 0 := by rw [indexOfC, if_pos rfl]
    simp only [normalizer, hX, if_pos hpos]
    simp

/-- Combined pipeline: on any parseable input, `normalizer` emits an
optional sign, one leading digit, the separator, a nonempty fraction that
`trimZeroes` leaves alone, the marker, and a signed rendered exponent —
and it preserves the parsed value. -/
theorem normalizer_valid (s : List Char) (hs : (strValue s).isSome = true) :
    ∃ (neg : Bool) (d : Char) (Y : List Char) (v2 : Int),
      isDigitC d = true ∧ AllDigits Y ∧ Y ≠ [] ∧ pad0 (dropTrailZ Y) = Y ∧
      normalizer s = (if neg then ['-'] else []) ++
        (d :: decPoint :: (Y ++ expSymbol :: (if v2 < 0 then '-' else '+') ::
          natToDigits v2.natAbs)) ∧
      strValue (normalizer s) = strValue s := by
  obtain ⟨neg, P, Q, sg, E, hP, hQ, hE, hEne, hsg, hPQ, hcanon, hval⟩ := canon_valid s hs
  obtain ⟨d, Y, v2, hsb, hse, hd, hY, hYne, hYstable, hvaleq, hzero9, hnz9⟩ :=
    stage2_main P Q sg E hP hQ hE hEne hsg hPQ
  have hredu := normalizer_eq_of_canon s neg (P ++ decPoint :: (Q ++ expSymbol :: sg :: E))
    hcanon
    (by
      intro _ h0
      have hh := indexOfC_zero_head h0
      cases hPc : P with
      | nil =>
        rw [hPc] at hh
        simp at hh
        exact absurd hh.symm (by decide)
      | cons p P2 =>
        rw [hPc] at hh
        simp at hh
        have hpd : isDigitC p = true := hP p (by rw [hPc]; exact List.mem_cons_self _ _)
        exact absurd hh (digit_ne hpd (by decide)))
  have hshape : normalizer s = (if neg then ['-'] else []) ++
      (d :: decPoint :: (Y ++ expSymbol :: (if v2 < 0 then '-' else '+') ::
        natToDigits v2.natAbs)) := by
    rw [hredu, hsb, hse]
    simp
  have hsgor : (if v2 < 0 then '-' else '+') = '+' ∨ (if v2 < 0 then '-' else '+') = '-' := by
    by_cases h : v2 < 0
    · rw [if_pos h]; exact Or.inr rfl
    · rw [if_neg h]; exact Or.inl rfl
  refine ⟨neg, d, Y, v2, hd, hY, hYne, hYstable, hshape, ?_⟩
  rw [hshape, strValue_out neg d Y _ _ hd hY hsgor (natToDigits_digits _)
    (natToDigits_ne_nil _), hval, svalZ_render, hvaleq]

/-! ### The claims -/

/-- C1: for every valid numeric input (default separator and marker), the
value denoted by the normalizer's output equals the value denoted by the
input, read as exact decimals. -/
theorem C1_value_preservation (s : List Char) (v : ℚ) (h : strValue s = some v) :
    strValue (normalizer s) = some v := by
  have hS : (strValue s).isSome = true := by rw [h]; rfl
  obtain ⟨_, _, _, _, _, _, _, _, _, hpres⟩ := normalizer_valid s hS
  rw [hpres, h]

theorem C1_value_preservation_witness : strValue (normalizer ['5']) = some 5 :=
  C1_value_preservation ['5'] 5 (by
    have hI : svI ['5'] = ['5'] := by decide
    have hF : svF ['5'] = [] := by decide
    rw [strValue, if_neg (by decide : ¬ (svI ['5'] ++ svF ['5'] = [])),
      if_pos (by decide : svL3 ['5'] = []), svBase,
      show svNeg ['5'] = false by decide, hI, hF, List.append_nil,
      show digitsToNat ['5'] = 5 by decide]
    norm_num)

/-- The output pattern the specification promises, following its words:
an optional minus, exactly one digit, an optional separator-plus-digits
fraction, the marker, an explicit sign, and one or more exponent digits. -/
def MatchesSpecPattern (l : List Char) : Prop :=
  ∃ (neg hasFrac : Bool) (d sgc : Char) (F E : List Char),
    isDigitC d = true ∧ (sgc = '+' ∨ sgc = '-') ∧ AllDigits E ∧ E ≠ [] ∧
    (hasFrac = true → AllDigits F ∧ F ≠ []) ∧
    l = (if neg then ['-'] else []) ++
      d :: ((if hasFrac then decPoint :: F else []) ++ expSymbol :: sgc :: E)

/-- C2: on every valid numeric input the normalizer's output matches the
canonical pattern `-?\d(\.\d+)?e[+-]\d+`. -/
theorem C2_canonical_shape (s : List Char) (h : (strValue s).isSome = true) :
    MatchesSpecPattern (normalizer s) := by
  obtain ⟨neg, d, Y, v2, hd, hY, hYne, _, hshape, _⟩ := normalizer_valid s h
  refine ⟨neg, true, d, (if v2 < 0 then '-' else '+'), Y, natToDigits v2.natAbs,
    hd, ?_, natToDigits_digits _, natToDigits_ne_nil _, fun _ => ⟨hY, hYne⟩, ?_⟩
  · by_cases hv : v2 < 0
    · rw [if_pos hv]; exact Or.inr rfl
    · rw [if_neg hv]; exact Or.inl rfl
  · rw [hshape]
    simp

theorem C2_canonical_shape_witness : MatchesSpecPattern (normalizer ['5']) :=
  C2_canonical_shape ['5'] (by decide)

set_option maxRecDepth 100000 in
/-- C4: on the README's own example the code does not return the value the
README documents; it returns `"0.0003453654345e+41"` (same value, but with
a leading zero digit and exponent 41) instead of `"3.453654345e+37"`. -/
theorem C4_readme_example_bug :
    normalizer ("00003453.654345000e+34".toList) = "0.0003453654345e+41".toList ∧
    normalizer ("00003453.654345000e+34".toList) ≠ "3.453654345e+37".toList := by
  have h : normalizer ("00003453.654345000e+34".toList) = "0.0003453654345e+41".toList := by
    decide
  exact ⟨h, by rw [h]; decide⟩

/-- C8: constructing with the config argument omitted throws (`Config`
dereferences `undefined`), and constructing from an empty config object
yields the separator and marker `"undefined"` — not `"."`/`"e"` — because
`'' + undefined` is the truthy string `"undefined"`, so `|| '.'` and
`|| 'e'` never apply. -/
theorem C8_config_defaults_bug :
    Config none = Except.error ['T', 'y', 'p', 'e', 'E', 'r', 'r', 'o', 'r'] ∧
    Config (some ⟨JsVal.undef, JsVal.undef⟩) =
      Except.ok (['u', 'n', 'd', 'e', 'f', 'i', 'n', 'e', 'd'],
                 ['u', 'n', 'd', 'e', 'f', 'i', 'n', 'e', 'd']) ∧
    (['u', 'n', 'd', 'e', 'f', 'i', 'n', 'e', 'd'] : List Char) ≠ [decPoint] ∧
    (['u', 'n', 'd', 'e', 'f', 'i', 'n', 'e', 'd'] : List Char) ≠ [expSymbol] := by
  refine ⟨rfl, rfl, by decide, by decide⟩

/-- Whatever `shiftExponent` receives, it emits the marker followed by some
rendering (`NaN` included), never an error. -/
theorem shiftExponent_marker (f : List Char) (m : Int) :
    ∃ r, shiftExponent f m = expSymbol :: r := by
  simp only [shiftExponent]
  cases hp : parseIntJS (jsSlice f (indexOfC f expSymbol + 1) (f.length : Int)) with
  | none => exact ⟨['+', 'N', 'a', 'N'], rfl⟩
  | some v =>
    by_cases hv : v + m < 0
    · refine ⟨'-' :: natToDigits (-(v + m)).toNat, ?_⟩
      show (if v + m < 0 then expSymbol :: '-' :: natToDigits (-(v + m)).toNat
        else expSymbol :: '+' :: natToDigits (v + m).toNat) = _
      rw [if_pos hv]
    · refine ⟨'+' :: natToDigits (v + m).toNat, ?_⟩
      show (if v + m < 0 then expSymbol :: '-' :: natToDigits (-(v + m)).toNat
        else expSymbol :: '+' :: natToDigits (v + m).toNat) = _
      rw [if_neg hv]

/-- C9: the normalizer is total — on any string, garbage included, it
returns a (possibly nonsensical) nonempty string containing the marker,
and never fails. -/
theorem C9_no_error (s : List Char) : normalizer s ≠ [] ∧ expSymbol ∈ normalizer s := by
  obtain ⟨r, hr⟩ := shiftExponent_marker
    (getExpPart (if indexOfC (normalizeExpStr s) '-' = 0 then
      List.drop 1 (normalizeExpStr s) else normalizeExpStr s))
    (-(getShiftNumPlaces (if indexOfC (normalizeExpStr s) '-' = 0 then
      List.drop 1 (normalizeExpStr s) else normalizeExpStr s)))
  simp only [normalizer]
  rw [hr]
  constructor
  · simp
  · simp

/-- `parseInt` on a plain digit string. -/
theorem parseIntJS_digits (E : List Char) (hE : AllDigits E) (hne : E ≠ []) :
    parseIntJS E = some ((digitsToNat E : Int)) := by
  cases E with
  | nil => exact absurd rfl hne
  | cons c t =>
    have hc : isDigitC c = true := hE c (List.mem_cons_self _ _)
    have h1 : ¬ ((c :: t).head? = some '-' ∨ (c :: t).head? = some '+') := by
      intro hcon
      rcases hcon with h | h <;>
        (simp at h; exact absurd h (digit_ne hc (by decide)))
    have h2 : ¬ ((c :: t).head? = some '-') := fun h => h1 (Or.inl h)
    have ht : (c :: t).takeWhile isDigitC = c :: t := takeWhile_all hE
    simp only [parseIntJS, if_neg h1, ht, if_neg h2,
      if_neg (show ¬ ((c :: t) = []) by simp)]
    simp

/-- `shiftExponent` when the digits follow the marker with no sign. -/
theorem shiftExponent_unsigned (E : List Char) (m : Int) (hE : AllDigits E)
    (hne : E ≠ []) :
    shiftExponent (expSymbol :: E) m =
      expSymbol :: (if (digitsToNat E : Int) + m < 0 then '-' else '+') ::
        natToDigits ((digitsToNat E : Int) + m).natAbs := by
  have hidx : indexOfC (expSymbol :: E) expSymbol = 0 := by
    rw [indexOfC, if_pos rfl]
  have hslice : jsSlice (expSymbol :: E) (0 + 1) ((expSymbol :: E).length : Int) = E := by
    rw [show (0 + 1 : Int) = ((1 : Nat) : Int) by norm_num, jsSlice_nat_len]
    rfl
  simp only [shiftExponent, hidx, hslice, parseIntJS_digits E hE hne]
  by_cases hv : (digitsToNat E : Int) + m < 0
  · rw [if_pos hv, if_pos hv]
    have h2 : (-((digitsToNat E : Int) + m)).toNat = ((digitsToNat E : Int) + m).natAbs := by
      omega
    rw [h2]
  · rw [if_neg hv, if_neg hv]
    have h2 : ((digitsToNat E : Int) + m).toNat = ((digitsToNat E : Int) + m).natAbs := by
      omega
    rw [h2]

/-- C7: on an exponent part of marker, optional sign, digits,
`shiftExponent` re-renders as the marker, an explicit sign that is `'+'`
exactly when the adjusted value is not negative (zero included), and the
absolute value in plain decimal with no leading zero-padding. -/
theorem C7_shiftExponent_rendering (sgn E : List Char) (m v : Int)
    (hsgn : sgn = [] ∨ sgn = ['+'] ∨ sgn = ['-'])
    (hE : AllDigits E) (hne : E ≠ [])
    (hv : v = (if sgn = ['-'] then -(digitsToNat E : Int) else (digitsToNat E : Int)) + m) :
    shiftExponent (expSymbol :: (sgn ++ E)) m =
      expSymbol :: (if v < 0 then '-' else '+') :: natToDigits v.natAbs ∧
    (v ≠ 0 → (natToDigits v.natAbs).head? ≠ some '0') := by
  constructor
  · rcases hsgn with rfl | rfl | rfl
    · rw [List.nil_append, shiftExponent_unsigned E m hE hne]
      have hveq : (digitsToNat E : Int) + m = v := by
        rw [hv, if_neg (by simp)]
      rw [hveq]
    · rw [List.singleton_append, shiftExponent_canonical '+' E m (Or.inl rfl) hE hne]
      have hveq : svalZ '+' E + m = v := by
        rw [hv, if_neg (by simp), svalZ, if_neg (by decide)]
        ring
      rw [hveq]
    · rw [List.singleton_append, shiftExponent_canonical '-' E m (Or.inr rfl) hE hne]
      have hveq : svalZ '-' E + m = v := by
        rw [hv, if_pos rfl, svalZ, if_pos rfl]
        ring
      rw [hveq]
  · intro hvne
    exact natToDigits_head v.natAbs (by omega)

theorem C7_shiftExponent_rendering_witness :
    shiftExponent (expSymbol :: (['+'] ++ ['3'])) (-3) =
      expSymbol :: (if (0 : Int) < 0 then '-' else '+') :: natToDigits (0 : Int).natAbs ∧
    ((0 : Int) ≠ 0 → (natToDigits (0 : Int).natAbs).head? ≠ some '0') :=
  C7_shiftExponent_rendering ['+'] ['3'] (-3) 0 (Or.inr (Or.inl rfl))
    (fun c hc => by simp at hc; rw [hc]; rfl) (by decide) (by decide)

/-- C6 as stated fails: `"00.5e+0"` is a reachable sign-free canonical
string (`normalizeExpStr` produces it from `"00.5"`), it does not denote
zero, yet its shifted base is `"0.05"` — a zero leading digit that is
neither the promised nonzero-digit shape nor the zero literal `"0.0"`. -/
theorem C6_shifted_base_counterexample :
    normalizeExpStr ['0', '0', '.', '5'] = ['0', '0', '.', '5', 'e', '+', '0'] ∧
    shiftBaseDecimalPoint (getBasePart ['0', '0', '.', '5', 'e', '+', '0'])
        (getShiftNumPlaces ['0', '0', '.', '5', 'e', '+', '0']) =
      ['0', '.', '0', '5'] ∧
    (['0', '.', '0', '5'] : List Char) ≠ ['0', '.', '0'] := by
  refine ⟨by decide, by decide, by decide⟩

/-- C6 amended: for canonical inputs whose integer part carries no
redundant leading zero (it is `"0"` itself or starts with a nonzero
digit), the shifted base is one digit, the separator and a nonempty
fraction, with the digit nonzero when the value is nonzero and the base
exactly `"0.0"` when the value is zero. -/
theorem C6_shifted_base_amended (P Q : List Char) (sg : Char) (E : List Char)
    (hP : AllDigits P) (hQ : AllDigits Q) (hE : AllDigits E) (hEne : E ≠ [])
    (hsg : sg = '+' ∨ sg = '-') (hPQ : P ++ Q ≠ [])
    (hlead : P = ['0'] ∨ (∃ p P2, P = p :: P2 ∧ p ≠ '0')) :
    ∃ d Y, shiftBaseDecimalPoint
        (getBasePart (P ++ decPoint :: (Q ++ expSymbol :: sg :: E)))
        (getShiftNumPlaces (P ++ decPoint :: (Q ++ expSymbol :: sg :: E))) =
      d :: decPoint :: Y ∧ isDigitC d = true ∧ AllDigits Y ∧ Y ≠ [] ∧
      (digitsToNat (P ++ Q) = 0 → d = '0' ∧ Y = ['0']) ∧
      (digitsToNat (P ++ Q) ≠ 0 → d ≠ '0') := by
  obtain ⟨d, Y, v2, hsb, _, hd, hY, hYne, _, _, hzero, hnz⟩ :=
    stage2_main P Q sg E hP hQ hE hEne hsg hPQ
  exact ⟨d, Y, hsb, hd, hY, hYne, hzero, fun h => hnz h hlead⟩

theorem C6_shifted_base_amended_witness :
    ∃ d Y, shiftBaseDecimalPoint
        (getBasePart (['5'] ++ decPoint :: (['0'] ++ expSymbol :: '+' :: ['0'])))
        (getShiftNumPlaces (['5'] ++ decPoint :: (['0'] ++ expSymbol :: '+' :: ['0']))) =
      d :: decPoint :: Y ∧ isDigitC d = true ∧ AllDigits Y ∧ Y ≠ [] ∧
      (digitsToNat (['5'] ++ ['0']) = 0 → d = '0' ∧ Y = ['0']) ∧
      (digitsToNat (['5'] ++ ['0']) ≠ 0 → d ≠ '0') :=
  C6_shifted_base_amended ['5'] ['0'] '+' ['0']
    (fun c hc => by simp at hc; rw [hc]; rfl) allDigits_zero allDigits_zero
    (by decide) (Or.inl rfl) (by decide) (Or.inr ⟨'5', [], rfl, by decide⟩)

/-- A string already in the canonical output shape, with a nonzero leading
digit and an exponent that renders to itself, is a fixed point of
`normalizer`. -/
theorem normalizer_fixed (neg : Bool) (d : Char) (Y : List Char) (sg2 : Char)
    (E2 : List Char) (hd : isDigitC d = true) (hd0 : d ≠ '0') (hY : AllDigits Y)
    (hYst : pad0 (dropTrailZ Y) = Y) (hsg : sg2 = '+' ∨ sg2 = '-')
    (hE : AllDigits E2) (hEne : E2 ≠ [])
    (hsgren : (if svalZ sg2 E2 < 0 then '-' else '+') = sg2)
    (hEren : natToDigits (svalZ sg2 E2).natAbs = E2) :
    normalizer ((if neg then ['-'] else []) ++
        (d :: decPoint :: (Y ++ expSymbol :: sg2 :: E2))) =
      (if neg then ['-'] else []) ++
        (d :: decPoint :: (Y ++ expSymbol :: sg2 :: E2)) := by
  have hdAll : AllDigits [d] := List.forall_mem_singleton.2 hd
  have htail_low : ∀ c ∈ Y ++ expSymbol :: sg2 :: E2, jsToLower c = c := by
    intro c hc
    rcases List.mem_append.1 hc with h | h
    · exact jsToLower_digit (hY c h)
    · rcases List.mem_cons.1 h with h | h
      · rw [h]; decide
      · rcases List.mem_cons.1 h with h | h
        · rw [h]; rcases hsg with rfl | rfl <;> decide
        · exact jsToLower_digit (hE c h)
  have htail_ws : ∀ c ∈ Y ++ expSymbol :: sg2 :: E2, isJsWS c = false := by
    intro c hc
    rcases List.mem_append.1 hc with h | h
    · exact notWS_digit_list hY c h
    · rcases List.mem_cons.1 h with h | h
      · rw [h]; decide
      · rcases List.mem_cons.1 h with h | h
        · rw [h]; rcases hsg with rfl | rfl <;> decide
        · exact notWS_digit_list hE c h
  have hlow : ∀ c ∈ (if neg then ['-'] else []) ++
      (d :: decPoint :: (Y ++ expSymbol :: sg2 :: E2)), jsToLower c = c := by
    refine (List.forall_mem_append).2 ⟨forall_mem_if_sign _ _ (by decide), ?_⟩
    intro c hc
    rcases List.mem_cons.1 hc with h | h
    · rw [h]; exact jsToLower_digit hd
    · rcases List.mem_cons.1 h with h | h
      · rw [h]; decide
      · exact htail_low c h
  have hws : ∀ c ∈ (if neg then ['-'] else []) ++
      (d :: decPoint :: (Y ++ expSymbol :: sg2 :: E2)), isJsWS c = false := by
    refine (List.forall_mem_append).2 ⟨forall_mem_if_sign _ _ (by decide), ?_⟩
    intro c hc
    rcases List.mem_cons.1 hc with h | h
    · rw [h]; exact notWS_digit_list hdAll d (List.mem_cons_self _ _)
    · rcases List.mem_cons.1 h with h | h
      · rw [h]; decide
      · exact htail_ws c h
  have he : (jsTrim ((if neg then ['-'] else []) ++
      (d :: decPoint :: (Y ++ expSymbol :: sg2 :: E2)))).map jsToLower =
      ((if neg then ['-'] else []) ++ [d]) ++
        decPoint :: (Y ++ expSymbol :: sg2 :: E2) := by
    rw [jsTrim_eq_self hws, map_id_of hlow]
    simp [List.append_assoc]
  have hCd : decPoint ∉ (if neg then ['-'] else []) ++ [d] := by
    intro hm
    rcases List.mem_append.1 hm with h | h
    · exact absurd (forall_mem_if_sign neg (· = '-') rfl decPoint h) (by decide)
    · exact absurd (List.eq_of_mem_singleton h).symm (digit_ne hd (by decide))
  have hCe : expSymbol ∉ (if neg then ['-'] else []) ++ [d] := by
    intro hm
    rcases List.mem_append.1 hm with h | h
    · exact absurd (forall_mem_if_sign neg (· = '-') rfl expSymbol h) (by decide)
    · exact absurd (List.eq_of_mem_singleton h).symm (digit_ne hd (by decide))
  have hcanon := normalizeExpStr_dot_exp _ ((if neg then ['-'] else []) ++ [d]) Y
    (sg2 :: E2) he hCd hCe (not_mem_of_all_digits hY (by decide))
  have hCne : ¬ ((if neg then ['-'] else []) ++ [d] = []) := by
    cases neg <;> simp
  have hens : ensurePlus (sg2 :: E2) = sg2 :: E2 := by
    rw [ensurePlus, if_pos]
    rcases hsg with rfl | rfl
    · exact Or.inl rfl
    · exact Or.inr rfl
  rw [if_neg hCne, hens, List.nil_append] at hcanon
  have hcanon2 : normalizeExpStr ((if neg then ['-'] else []) ++
      (d :: decPoint :: (Y ++ expSymbol :: sg2 :: E2))) =
      (if neg then ['-'] else []) ++
        (d :: decPoint :: (Y ++ expSymbol :: sg2 :: E2)) := by
    rw [hcanon]
    simp [List.append_assoc]
  have hredu := normalizer_eq_of_canon _ neg
    (d :: decPoint :: (Y ++ expSymbol :: sg2 :: E2)) hcanon2
    (by
      intro _ h0
      have hh := indexOfC_zero_head h0
      simp at hh
      exact absurd hh (digit_ne hd (by decide)))
  have hσ : getShiftNumPlaces (d :: decPoint :: (Y ++ expSymbol :: sg2 :: E2)) = 0 := by
    have h := getShift_left [d] Y (sg2 :: E2) hdAll (by simp [hd0])
    simpa using h
  have hbase : getBasePart (d :: decPoint :: (Y ++ expSymbol :: sg2 :: E2)) =
      d :: decPoint :: Y := by
    have h := getBasePart_canonical [d] Y (sg2 :: E2)
      (not_mem_of_all_digits hdAll (by decide))
      (not_mem_of_all_digits hY (by decide)) (by decide)
    simpa using h
  have hexpp : getExpPart (d :: decPoint :: (Y ++ expSymbol :: sg2 :: E2)) =
      expSymbol :: sg2 :: E2 := by
    have h := getExpPart_canonical [d] Y (sg2 :: E2)
      (not_mem_of_all_digits hdAll (by decide))
      (not_mem_of_all_digits hY (by decide)) (by decide)
    simpa using h
  have hsb : shiftBaseDecimalPoint (d :: decPoint :: Y) 0 = d :: decPoint :: Y := by
    have h := shiftBaseDecimalPoint_eq [d] Y 0 1
      (not_mem_of_all_digits hdAll (by decide)) (by simp)
    rw [show ([d] ++ Y).take 1 = [d] by simp,
      show ([d] ++ Y).drop 1 = Y by simp] at h
    simp only [List.singleton_append] at h
    have h2 := trimZeroes_base [d] Y hdAll hY
    rw [List.singleton_append] at h2
    rw [h, h2,
      show ([d] : List Char).dropWhile (· = '0') = [d] by
        rw [List.dropWhile_cons]
        simp [hd0],
      show pad0 [d] = [d] by rw [pad0, if_neg (by simp)],
      hYst]
    rfl
  have hse : shiftExponent (expSymbol :: sg2 :: E2) (-(0 : Int)) =
      expSymbol :: sg2 :: E2 := by
    rw [neg_zero, shiftExponent_canonical sg2 E2 0 hsg hE hEne, add_zero, hsgren, hEren]
  rw [hredu, hσ, hbase, hexpp, hsb, hse]
  simp [List.append_assoc]

/-- C3 as stated fails: `"0"` is a valid numeric string, yet normalizing
its normalization gives a different string (the exponent drops again). -/
theorem C3_idempotence_counterexample :
    normalizer (normalizer ['0']) ≠ normalizer ['0'] := by decide

/-- C3 amended: normalization is idempotent on every valid numeric string
whose normalized form does not begin, after the optional minus sign, with
the digit `'0'` (that digit is `'0'` exactly for zero values and for
inputs whose integer part keeps a redundant leading zero). -/
theorem C3_idempotent_amended (s : List Char) (hs : (strValue s).isSome = true)
    (hnz : (if (normalizer s).head? = some '-' then (normalizer s).drop 1
      else normalizer s).head? ≠ some '0') :
    normalizer (normalizer s) = normalizer s := by
  obtain ⟨neg, d, Y, v2, hd, hY, hYne, hYst, hshape, _⟩ := normalizer_valid s hs
  have hd0 : d ≠ '0' := by
    intro hcon
    apply hnz
    rw [hshape]
    cases neg
    · have hdm : d ≠ '-' := digit_ne hd (by decide)
      simp [hdm, hcon]
    · simp [hcon]
  rw [hshape]
  exact normalizer_fixed neg d Y _ _ hd hd0 hY hYst
    (by
      by_cases hv : v2 < 0
      · rw [if_pos hv]; exact Or.inr rfl
      · rw [if_neg hv]; exact Or.inl rfl)
    (natToDigits_digits _) (natToDigits_ne_nil _)
    (by rw [svalZ_render]) (by rw [svalZ_render])

theorem C3_idempotent_amended_witness :
    normalizer (normalizer ['5']) = normalizer ['5'] :=
  C3_idempotent_amended ['5'] (by decide) (by decide)

/-- C10 (implicit): when the canonicalized input is the zero pattern
`0.<n zeros>e<sign><digits>`, the scan runs past the whole fraction, the
base collapses to `"0.0"`, and the exponent is decreased by `n + 1` — for
the input `"0"` this yields `"0.0e-2"`. -/
theorem C10_zero_input_shift (s : List Char) (n : Nat) (sg : Char) (E : List Char)
    (hsg : sg = '+' ∨ sg = '-') (hE : AllDigits E) (hEne : E ≠ [])
    (hcanon : normalizeExpStr s =
      '0' :: decPoint :: (List.replicate n '0' ++ expSymbol :: sg :: E)) :
    normalizer s = '0' :: decPoint :: '0' :: expSymbol ::
      (if svalZ sg E - (n + 1) < 0 then '-' else '+') ::
      natToDigits (svalZ sg E - (n + 1)).natAbs := by
  have hrepd : AllDigits (List.replicate n '0') := by
    intro c hc
    rw [List.eq_of_mem_replicate hc]
    rfl
  have hrepz : ∀ c ∈ List.replicate n '0', c = '0' := fun c hc =>
    List.eq_of_mem_replicate hc
  have hredu := normalizer_eq_of_canon s false
    ('0' :: decPoint :: (List.replicate n '0' ++ expSymbol :: sg :: E))
    (by rw [hcanon]; simp)
    (by
      intro _ h0
      have hh := indexOfC_zero_head h0
      rw [List.head?_cons] at hh
      exact absurd (Option.some.inj hh) (by decide))
  have hσ : getShiftNumPlaces
      ('0' :: decPoint :: (List.replicate n '0' ++ expSymbol :: sg :: E)) =
      (n : Int) + 1 := by
    have h := getShift_right_zeros (List.replicate n '0') (sg :: E) hrepz
    simpa using h
  have hbase : getBasePart
      ('0' :: decPoint :: (List.replicate n '0' ++ expSymbol :: sg :: E)) =
      '0' :: decPoint :: List.replicate n '0' := by
    have h := getBasePart_canonical ['0'] (List.replicate n '0') (sg :: E)
      (by decide) (not_mem_of_all_digits hrepd (by decide)) (by decide)
    simpa using h
  have hexpp : getExpPart
      ('0' :: decPoint :: (List.replicate n '0' ++ expSymbol :: sg :: E)) =
      expSymbol :: sg :: E := by
    have h := getExpPart_canonical ['0'] (List.replicate n '0') (sg :: E)
      (by decide) (not_mem_of_all_digits hrepd (by decide)) (by decide)
    simpa using h
  have hrep1 : (['0'] : List Char) ++ List.replicate n '0' =
      List.replicate (n + 1) '0' := by
    rw [List.replicate_succ]
    rfl
  have hsb : shiftBaseDecimalPoint ('0' :: decPoint :: List.replicate n '0')
      ((n : Int) + 1) = '0' :: decPoint :: ['0'] := by
    have h := shiftBaseDecimalPoint_eq ['0'] (List.replicate n '0') ((n : Int) + 1)
      (n + 2) (by decide) (by rw [List.length_singleton]; push_cast; ring)
    rw [hrep1] at h
    rw [show (List.replicate (n + 1) '0').take (n + 2) = List.replicate (n + 1) '0' by
        apply List.take_of_length_le
        rw [List.length_replicate]
        omega,
      show (List.replicate (n + 1) '0').drop (n + 2) = [] by
        apply List.drop_eq_nil_of_le
        rw [List.length_replicate]
        omega] at h
    simp only [List.singleton_append] at h
    rw [h, trimZeroes_base (List.replicate (n + 1) '0') []
      (by
        intro c hc
        rw [List.eq_of_mem_replicate hc]
        rfl)
      (by intro c hc; cases hc)]
    rw [@dropWhile_all_pos (· = '0') (List.replicate (n + 1) '0')
      (by
        intro c hc
        simp [List.eq_of_mem_replicate hc])]
    rfl
  have hse : shiftExponent (expSymbol :: sg :: E) (-((n : Int) + 1)) =
      expSymbol :: (if svalZ sg E - (n + 1) < 0 then '-' else '+') ::
        natToDigits (svalZ sg E - (n + 1)).natAbs := by
    rw [shiftExponent_canonical sg E (-((n : Int) + 1)) hsg hE hEne]
    have hexe : svalZ sg E + -((n : Int) + 1) = svalZ sg E - ((n : Int) + 1) := by ring
    rw [hexe]
  rw [hredu, hσ, hbase, hexpp, hsb, hse]
  rfl

theorem C10_zero_input_shift_witness :
    normalizer ['0'] = ['0', '.', '0', 'e', '-', '2'] :=
  (C10_zero_input_shift ['0'] 1 '+' ['0'] (Or.inl rfl) allDigits_zero (by decide)
    (by decide)).trans (by decide)

theorem split_first {c : Char} : ∀ {l : List Char}, c ∈ l →
    ∃ A B, l = A ++ c :: B ∧ c ∉ A
  | [], h => absurd h (List.not_mem_nil c)
  | x :: t, h => by
    by_cases hx : x = c
    · exact ⟨[], t, by rw [hx]; rfl, List.not_mem_nil c⟩
    · have hct : c ∈ t := by
        rcases List.mem_cons.1 h with h1 | h1
        · exact absurd h1.symm hx
        · exact h1
      obtain ⟨A, B, hAB, hA⟩ := split_first hct
      refine ⟨x :: A, B, by rw [List.cons_append, hAB], ?_⟩
      intro hm
      rcases List.mem_cons.1 hm with h1 | h1
      · exact hx h1.symm
      · exact hA h1

theorem ensurePlus_opt (sgn : List Char) (d : Char) (D : List Char)
    (hsgn : sgn = [] ∨ sgn = ['+'] ∨ sgn = ['-']) (hd : isDigitC d = true) :
    ∃ sg, ensurePlus (sgn ++ d :: D) = sg :: d :: D ∧ (sg = '+' ∨ sg = '-') := by
  rcases hsgn with rfl | rfl | rfl
  · refine ⟨'+', ?_, Or.inl rfl⟩
    rw [List.nil_append, ensurePlus, if_neg]
    intro hcon
    rcases hcon with h | h <;>
      (rw [List.head?_cons] at h
       exact absurd (Option.some.inj h) (digit_ne hd (by decide)))
  · exact ⟨'+', by
      rw [List.singleton_append, ensurePlus,
        if_pos (Or.inl (show ('+' :: d :: D).head? = some '+' from rfl))], Or.inl rfl⟩
  · exact ⟨'-', by
      rw [List.singleton_append, ensurePlus,
        if_pos (Or.inr (show ('-' :: d :: D).head? = some '-' from rfl))], Or.inr rfl⟩

theorem count_marker_tail (c sg d : Char) (R : List Char) (hce : c ≠ expSymbol)
    (hcsg : c ≠ sg) (hcd : c ≠ d) :
    (expSymbol :: sg :: d :: R).count c = R.count c := by
  rw [List.count_cons_of_ne hce, List.count_cons_of_ne hcsg, List.count_cons_of_ne hcd]

theorem count_marker_tail_self (sg d : Char) (R : List Char) (hsg : expSymbol ≠ sg)
    (hd : expSymbol ≠ d) (hR : expSymbol ∉ R) :
    (expSymbol :: sg :: d :: R).count expSymbol = 1 := by
  rw [List.count_cons_self, List.count_cons_of_ne hsg, List.count_cons_of_ne hd,
    List.count_eq_zero.2 hR]

theorem not_mem_of_count_le_one {c : Char} {A B : List Char}
    (h : (A ++ c :: B).count c ≤ 1) : c ∉ A ∧ c ∉ B := by
  rw [List.count_append, List.count_cons_self] at h
  exact ⟨List.count_eq_zero.1 (by omega), List.count_eq_zero.1 (by omega)⟩

theorem count_sgn_zero (sgn : List Char) (hsgn : sgn = [] ∨ sgn = ['+'] ∨ sgn = ['-'])
    (c : Char) (hp : c ≠ '+') (hm : c ≠ '-') : sgn.count c = 0 := by
  rcases hsgn with rfl | rfl | rfl
  · rfl
  · exact List.count_eq_zero.2 (by intro h; simp at h; exact hp h)
  · exact List.count_eq_zero.2 (by intro h; simp at h; exact hm h)

theorem count_pre_zero (C : List Char) (c : Char) (hc : c ≠ '0') :
    ((if C = [] then ['0'] else []) : List Char).count c = 0 := by
  by_cases h : C = []
  · rw [if_pos h]
    exact List.count_eq_zero.2 (by intro hm; simp at hm; exact hc hm)
  · rw [if_neg h]
    rfl

/-- C5: on every input that, after trimming and lowercasing, has at most
one separator, at most one marker, and — when a marker is present — an
optional sign and then a digit right after it, `normalizeExpStr` emits
exactly one separator, exactly one marker, and the marker is immediately
followed by an explicit sign and at least one digit. -/
theorem C5_normalizeExpStr_invariant (s e0 : List Char)
    (he0 : (jsTrim s).map jsToLower = e0)
    (hdot : e0.count decPoint ≤ 1)
    (hexp : e0.count expSymbol ≤ 1)
    (hmark : ∀ A B, e0 = A ++ expSymbol :: B → expSymbol ∉ A →
      ∃ sgn d D, (sgn = [] ∨ sgn = ['+'] ∨ sgn = ['-']) ∧
        B = sgn ++ d :: D ∧ isDigitC d = true) :
    (normalizeExpStr s).count decPoint = 1 ∧
    (normalizeExpStr s).count expSymbol = 1 ∧
    ∃ G sg d R, normalizeExpStr s = G ++ expSymbol :: sg :: d :: R ∧
      (sg = '+' ∨ sg = '-') ∧ isDigitC d = true := by
  by_cases hdm : decPoint ∈ e0
  · obtain ⟨C, D0, hsplit, hC⟩ := split_first hdm
    by_cases heC : expSymbol ∈ C
    · -- marker strictly before the separator
      obtain ⟨C1, C2, hsplitC, hC1⟩ := split_first heC
      have hsplit2 : e0 = C1 ++ expSymbol :: (C2 ++ decPoint :: D0) := by
        rw [hsplit, hsplitC]
        simp
      obtain ⟨sgn, d, D, hsgn, hB, hd⟩ := hmark C1 (C2 ++ decPoint :: D0) hsplit2 hC1
      obtain ⟨sg, hens, hsgor⟩ := ensurePlus_opt sgn d D hsgn hd
      have hdmem : decPoint ∈ C2 ++ decPoint :: D0 :=
        List.mem_append.2 (Or.inr (List.mem_cons_self _ _))
      have hcnt := hdot
      rw [hsplit2, List.count_append,
        List.count_cons_of_ne (by decide : decPoint ≠ expSymbol)] at hcnt
      have hcnt2 : 1 ≤ (C2 ++ decPoint :: D0).count decPoint := by
        rw [List.count_append, List.count_cons_self]
        omega
      have hdC1 : decPoint ∉ C1 := List.count_eq_zero.1 (by omega)
      have hDdot : D.count decPoint = 1 := by
        have h1 : (C2 ++ decPoint :: D0).count decPoint = 1 := by omega
        rw [hB, List.count_append,
          count_sgn_zero sgn hsgn decPoint (by decide) (by decide),
          List.count_cons_of_ne (Ne.symm (digit_ne hd (by decide)))] at h1
        omega
      have hDe : D.count expSymbol = 0 := by
        have h := hexp
        rw [hsplit2, List.count_append, List.count_cons_self, hB, List.count_append,
          count_sgn_zero sgn hsgn expSymbol (by decide) (by decide),
          List.count_cons_of_ne (Ne.symm (digit_ne hd (by decide)))] at h
        omega
      have hcanon := normalizeExpStr_exp_before_dot s C1 (C2 ++ decPoint :: D0)
        (he0.trans hsplit2) hdC1 hC1 hdmem
      rw [hB, hens] at hcanon
      refine ⟨?_, ?_, C1, sg, d, D, hcanon, hsgor, hd⟩
      · rw [hcanon, List.count_append, List.count_eq_zero.2 hdC1,
          count_marker_tail decPoint sg d D (by decide)
            (by rcases hsgor with rfl | rfl <;> decide)
            (Ne.symm (digit_ne hd (by decide))), hDdot]
      · rw [hcanon, List.count_append, List.count_eq_zero.2 hC1,
          count_marker_tail_self sg d D
            (by rcases hsgor with rfl | rfl <;> decide)
            (Ne.symm (digit_ne hd (by decide))) (List.count_eq_zero.1 hDe)]
    · by_cases hem : expSymbol ∈ e0
      · -- separator first, marker later
        have heD0 : expSymbol ∈ D0 := by
          have h := hem
          rw [hsplit] at h
          rcases List.mem_append.1 h with h1 | h1
          · exact absurd h1 heC
          · rcases List.mem_cons.1 h1 with h2 | h2
            · exact absurd h2 (by decide)
            · exact h2
        obtain ⟨D1, B, hsplitD, hD1⟩ := split_first heD0
        have hsplit2 : e0 = C ++ decPoint :: (D1 ++ expSymbol :: B) := by
          rw [hsplit, hsplitD]
        obtain ⟨sgn, d, D, hsgn, hB, hd⟩ := hmark (C ++ decPoint :: D1) B
          (by rw [hsplit2]; simp) (not_mem_append_cons heC (by decide) hD1)
        obtain ⟨sg, hens, hsgor⟩ := ensurePlus_opt sgn d D hsgn hd
        have hcntd := hdot
        rw [hsplit2, List.count_append, List.count_cons_self, List.count_append,
          List.count_cons_of_ne (by decide : decPoint ≠ expSymbol)] at hcntd
        have hdD1 : decPoint ∉ D1 := List.count_eq_zero.1 (by omega)
        have hdB : B.count decPoint = 0 := by omega
        have hdD : decPoint ∉ D := by
          rw [hB, List.count_append,
            count_sgn_zero sgn hsgn decPoint (by decide) (by decide),
            List.count_cons_of_ne (Ne.symm (digit_ne hd (by decide)))] at hdB
          exact List.count_eq_zero.1 (by omega)
        have hcnte := hexp
        rw [hsplit2, List.count_append,
          List.count_cons_of_ne (by decide : expSymbol ≠ decPoint), List.count_append,
          List.count_cons_self] at hcnte
        have heB : B.count expSymbol = 0 := by omega
        have heD : expSymbol ∉ D := by
          rw [hB, List.count_append,
            count_sgn_zero sgn hsgn expSymbol (by decide) (by decide),
            List.count_cons_of_ne (Ne.symm (digit_ne hd (by decide)))] at heB
          exact List.count_eq_zero.1 (by omega)
        have hcanon := normalizeExpStr_dot_exp s C D1 B (he0.trans hsplit2) hC heC hD1
        rw [hB, hens] at hcanon
        refine ⟨?_, ?_, (if C = [] then ['0'] else []) ++ (C ++ decPoint :: D1), sg, d, D,
          hcanon, hsgor, hd⟩
        · rw [hcanon]
          simp only [List.count_append]
          rw [count_pre_zero C decPoint (by decide), List.count_eq_zero.2 hC,
            List.count_cons_self, List.count_eq_zero.2 hdD1,
            count_marker_tail decPoint sg d D (by decide)
              (by rcases hsgor with rfl | rfl <;> decide)
              (Ne.symm (digit_ne hd (by decide))), List.count_eq_zero.2 hdD]
        · rw [hcanon]
          simp only [List.count_append]
          rw [count_pre_zero C expSymbol (by decide), List.count_eq_zero.2 heC,
            List.count_cons_of_ne (by decide : expSymbol ≠ decPoint),
            List.count_eq_zero.2 hD1,
            count_marker_tail_self sg d D
              (by rcases hsgor with rfl | rfl <;> decide)
              (Ne.symm (digit_ne hd (by decide))) heD]
      · -- separator only
        have heD0 : expSymbol ∉ D0 := fun h =>
          hem (by rw [hsplit]; exact List.mem_append.2 (Or.inr (List.mem_cons_of_mem _ h)))
        have hcntd := hdot
        rw [hsplit, List.count_append, List.count_cons_self] at hcntd
        have hdD0 : decPoint ∉ D0 := List.count_eq_zero.1 (by omega)
        have hcanon := normalizeExpStr_dot_only s C D0 (he0.trans hsplit) hC heC heD0
        refine ⟨?_, ?_, (if C = [] then ['0'] else []) ++ (C ++ decPoint :: D0),
          '+', '0', [], by rw [hcanon], Or.inl rfl, by decide⟩
        · rw [hcanon]
          simp only [List.count_append]
          rw [count_pre_zero C decPoint (by decide), List.count_eq_zero.2 hC,
            List.count_cons_self, List.count_eq_zero.2 hdD0,
            show ([expSymbol, '+', '0'] : List Char).count decPoint = 0 by decide]
        · rw [hcanon]
          simp only [List.count_append]
          rw [count_pre_zero C expSymbol (by decide), List.count_eq_zero.2 heC,
            List.count_cons_of_ne (by decide : expSymbol ≠ decPoint),
            List.count_eq_zero.2 heD0,
            show ([expSymbol, '+', '0'] : List Char).count expSymbol = 1 by decide]
  · by_cases hem : expSymbol ∈ e0
    · -- marker only
      obtain ⟨A, B, hsplit, hA⟩ := split_first hem
      obtain ⟨sgn, d, D, hsgn, hB, hd⟩ := hmark A B hsplit hA
      obtain ⟨sg, hens, hsgor⟩ := ensurePlus_opt sgn d D hsgn hd
      have hdm2 : decPoint ∉ A ++ expSymbol :: B := by rw [← hsplit]; exact hdm
      have hdA : decPoint ∉ A := fun h => hdm2 (List.mem_append.2 (Or.inl h))
      have hdD : decPoint ∉ D := by
        intro h
        exact hdm2 (List.mem_append.2 (Or.inr (List.mem_cons_of_mem _
          (by rw [hB]; exact List.mem_append.2 (Or.inr (List.mem_cons_of_mem _ h))))))
      have hcnte := hexp
      rw [hsplit] at hcnte
      obtain ⟨-, hBe⟩ := not_mem_of_count_le_one hcnte
      have heD : expSymbol ∉ D := fun h =>
        hBe (by rw [hB]; exact List.mem_append.2 (Or.inr (List.mem_cons_of_mem _ h)))
      have hcanon := normalizeExpStr_exp_only s A B (he0.trans hsplit) hdm2 hA
      rw [hB, hens] at hcanon
      refine ⟨?_, ?_, A ++ [decPoint, '0'], sg, d, D, hcanon, hsgor, hd⟩
      · rw [hcanon]
        simp only [List.count_append]
        rw [List.count_eq_zero.2 hdA,
          show ([decPoint, '0'] : List Char).count decPoint = 1 by decide,
          count_marker_tail decPoint sg d D (by decide)
            (by rcases hsgor with rfl | rfl <;> decide)
            (Ne.symm (digit_ne hd (by decide))), List.count_eq_zero.2 hdD]
      · rw [hcanon]
        simp only [List.count_append]
        rw [List.count_eq_zero.2 hA,
          show ([decPoint, '0'] : List Char).count expSymbol = 0 by decide,
          count_marker_tail_self sg d D
            (by rcases hsgor with rfl | rfl <;> decide)
            (Ne.symm (digit_ne hd (by decide))) heD]
    · -- neither separator nor marker
      have hcanon := normalizeExpStr_plain s e0 he0 hdm hem
      refine ⟨?_, ?_, e0 ++ [decPoint, '0'], '+', '0', [],
        by rw [hcanon]; simp, Or.inl rfl, by decide⟩
      · rw [hcanon, List.count_append, List.count_eq_zero.2 hdm,
          show ([decPoint, '0', expSymbol, '+', '0'] : List Char).count decPoint = 1
            by decide]
      · rw [hcanon, List.count_append, List.count_eq_zero.2 hem,
          show ([decPoint, '0', expSymbol, '+', '0'] : List Char).count expSymbol = 1
            by decide]

theorem C5_normalizeExpStr_invariant_witness :
    (normalizeExpStr ['5']).count decPoint = 1 ∧
    (normalizeExpStr ['5']).count expSymbol = 1 ∧
    ∃ G sg d R, normalizeExpStr ['5'] = G ++ expSymbol :: sg :: d :: R ∧
      (sg = '+' ∨ sg = '-') ∧ isDigitC d = true :=
  C5_normalizeExpStr_invariant ['5'] ['5'] (by decide) (by decide) (by decide)
    (by
      intro A B hAB _
      exfalso
      cases A with
      | nil =>
        rw [List.nil_append] at hAB
        have h1 : '5' = expSymbol := by injection hAB
        exact absurd h1 (by decide)
      | cons a t =>
        rw [List.cons_append] at hAB
        have h2 : ([] : List Char) = t ++ expSymbol :: B := by injection hAB
        exact absurd h2.symm (by simp))

end NormalizeExponential
